import Mathlib

/-
Verification of the per-process protocol of Musaev's Parallel Distributed DFS
(src/Musaev-PDDFS.cpp) and of the Erdős–Rényi test-graph generator
(src/erdos_renyi_gen.cpp), as a shallow embedding in Lean.

Ranks are modelled as integers (the C code uses `int`, with `-1` as the
"no parent" sentinel).  `std::set<int>` becomes `Finset ℤ`; the path arrays
with their explicit length fields become `List ℤ`.  Each MPI send is recorded
as a pair (destination, message); `send_discover` appends the destination to
the payload, exactly as the C code writes `path[path_length - 1] = dest`.
-/

namespace PDDFS

/-- Wire message of the protocol: the three MPI tags of the source
(`DISCOVER_TYPE`, `REJECT_TYPE`, `TERMINATE_TYPE`).  Only DISCOVER carries a
payload (the path, a sequence of ranks). -/
inductive Msg where
  | discover (q : List ℤ)
  | reject
  | terminate
deriving DecidableEq

/-- Per-process mutable state of `main` in src/Musaev-PDDFS.cpp:
`world_rank`, `mounted`, `parent` (initialised to -1), `graph_path` with its
length, `children`, `terminated_children`, `is_parent_rejected`. -/
structure NodeState where
  rank : ℤ
  mounted : Bool
  parent : ℤ
  graph_path : List ℤ
  children : Finset ℤ
  terminated_children : Finset ℤ
  is_parent_rejected : Bool
deriving DecidableEq

/-- The comparator `path_order` of src/Musaev-PDDFS.cpp lines 177-187: scan
the first `min` length positions in order; `-1` on the first strictly smaller
element of the first path, `1` on the first strictly larger one, `0` when the
compared positions are all equal. -/
def path_order : List ℤ → List ℤ → ℤ
  | a :: p, b :: q => if a < b then -1 else if b < a then 1 else path_order p q
  | _, _ => 0

/-- `send_discover` applied to a set of destinations (lines 118-130): the
payload sent to `d` is the current path with `d` appended; `std::set`
iterates in ascending order. -/
def discoverAll (dests : Finset ℤ) (path : List ℤ) : List (ℤ × Msg) :=
  (dests.sort (· ≤ ·)).map (fun d => (d, Msg.discover (path ++ [d])))

/-- One dispatch of the event loop of `main` (lines 250-347): given the
sender `s` and the message, produce the updated state and the list of
messages emitted, in program order. -/
def handleMessage (s : ℤ) (m : Msg) (st : NodeState) : NodeState × List (ℤ × Msg) :=
  match m with
  | .discover q =>
    if st.mounted = false then
      -- lines 256-268: first mount
      let st' := { st with mounted := true, parent := s,
                           children := st.children.erase s, graph_path := q }
      (st', discoverAll st'.children q)
    else if s = st.parent then
      -- lines 269-279: DISCOVER from the current parent
      if path_order st.graph_path q = 1 then
        ({ st with graph_path := q }, [])
      else (st, [])
    else
      -- lines 280-319: DISCOVER from a non-parent while mounted
      let order := path_order st.graph_path q
      if order = 1 then
        -- lines 287-300
        if st.is_parent_rejected = true then
          ({ st with graph_path := q, parent := s, is_parent_rejected := false,
                     children := st.children.erase s }, [])
        else
          ({ st with graph_path := q, parent := s, is_parent_rejected := false,
                     children := (insert st.parent st.children).erase s },
           [(st.parent, Msg.discover (q ++ [st.parent]))])
      else if order = 0 then
        -- lines 301-314: t = recv_graph_path[path_length]
        let t := q.getD st.graph_path.length 0
        if t < s then
          ({ st with children := st.children.erase s }, [(s, Msg.reject)])
        else
          ({ st with children := st.children.erase t }, [(t, Msg.reject)])
      else if order = -1 then
        -- lines 315-318: echo the better current path back to the sender
        (st, [(s, Msg.discover (st.graph_path ++ [s]))])
      else (st, [])
  | .reject =>
      -- lines 322-337
      if s = st.parent then ({ st with is_parent_rejected := true }, [])
      else ({ st with children := st.children.erase s }, [])
  | .terminate =>
      -- lines 338-346: unconditionally record the sender
      ({ st with terminated_children := insert s st.terminated_children }, [])

/-- The DISCOVER payload of a message (empty for the payload-less REJECT
and TERMINATE). -/
def msgPayload : Msg → List ℤ
  | .discover q => q
  | _ => []

/-- The state each process starts with (lines 217-229): all neighbours are
children, nothing discovered yet, `parent = -1`. -/
def initState (rank : ℤ) (neighbors : Finset ℤ) : NodeState :=
  { rank := rank, mounted := false, parent := -1, graph_path := [],
    children := neighbors, terminated_children := ∅, is_parent_rejected := false }

/-- The root bootstrap (lines 235-241): mount, set the path to `[0]`, send
DISCOVER to every child. -/
def bootstrapRoot (st : NodeState) : NodeState × List (ℤ × Msg) :=
  ({ st with mounted := true, graph_path := [0] }, discoverAll st.children [0])

/-- Process a list of inbound messages in order, ignoring the exit check
(used to state invariants that hold after every message). -/
def runMsgs (st : NodeState) (msgs : List (ℤ × Msg)) : NodeState :=
  msgs.foldl (fun st p => (handleMessage p.1 p.2 st).1) st

/-- Outcome of the event loop on a finite inbound sequence: either the
process exited (with its final state, the trailing sends performed at exit,
and the children set it printed), or it is still blocked in `MPI_Probe`
waiting for a further message. -/
inductive LoopResult where
  | exited (final : NodeState) (trail : List (ℤ × Msg)) (emitted : Finset ℤ)
  | blocked (st : NodeState)
deriving DecidableEq

/-- The event loop of `main` (lines 243-364): probe, dispatch, then test
`terminated_children.size() == children.size()`; on success a non-root sends
TERMINATE to its parent, the children set is printed and the loop returns.
The test is only reached after a message has been received. -/
def runLoop (st : NodeState) : List (ℤ × Msg) → LoopResult
  | [] => .blocked st
  | (s, m) :: rest =>
    let st' := (handleMessage s m st).1
    if st'.terminated_children.card = st'.children.card then
      .exited st' (if st'.rank = 0 then [] else [(st'.parent, Msg.terminate)])
        st'.children
    else runLoop st' rest

/-! ### Global system model

A configuration of the whole distributed computation: one `NodeState` per
process, plus the per-ordered-pair FIFO channels of the MPI layer.  A
scheduler step delivers the oldest message of one channel to its receiver
(MPI guarantees FIFO per (src, dst) pair, and `MPI_Probe(MPI_ANY_SOURCE)`
picks some pending channel), runs `handleMessage` there, and appends the
emitted messages to the sender's outgoing channels.  A second step kind lets
any process put a TERMINATE on any channel at any time; this over-approximates
the TERMINATE that a process sends to its parent on exiting the loop, so every
configuration of the real system is reachable in this model. -/

/-- Global configuration: local state of every process and channel contents
`chan j i` = messages in flight from process `j` to process `i`, oldest
first. -/
structure Config where
  state : ℕ → NodeState
  chan : ℕ → ℕ → List Msg

/-- Append the messages `sends`, emitted by process `i`, to the matching
outgoing channels of `i`, in order. -/
def pushSends (i : ℕ) (sends : List (ℤ × Msg)) (ch : ℕ → ℕ → List Msg) :
    ℕ → ℕ → List Msg :=
  sends.foldl
    (fun ch p => fun a b =>
      if a = i ∧ b = p.1.toNat then ch a b ++ [p.2] else ch a b) ch

/-- The channel map after the head of channel `j → i` has been dequeued,
leaving `rest` there. -/
def chanAfter (c : Config) (j i : ℕ) (rest : List Msg) : ℕ → ℕ → List Msg :=
  fun a b => if a = j ∧ b = i then rest else c.chan a b

/-- Deliver message `m`, the head of channel `j → i` (whose tail is `rest`),
to process `i`. -/
def applyDeliver (c : Config) (j i : ℕ) (m : Msg) (rest : List Msg) : Config :=
  let r := handleMessage (j : ℤ) m (c.state i)
  { state := Function.update c.state i r.1,
    chan := pushSends i r.2 (chanAfter c j i rest) }

/-- One scheduler step of the system with `N` processes. -/
inductive Step (N : ℕ) : Config → Config → Prop
  | deliver (c : Config) (j i : ℕ) (hj : j < N) (hi : i < N) (m : Msg)
      (rest : List Msg) (hch : c.chan j i = m :: rest) :
      Step N c (applyDeliver c j i m rest)
  | spontTerminate (c : Config) (j i : ℕ) (hj : j < N) (hi : i < N) (hne : j ≠ i) :
      Step N c { c with chan := fun a b =>
        if a = j ∧ b = i then c.chan a b ++ [Msg.terminate] else c.chan a b }

/-- The initial configuration for neighbour map `nbr`: every process starts
in `initState`, the root has already run its bootstrap (lines 235-241), so
its initial DISCOVER messages `[0, c]` are in flight to its neighbours. -/
def initConfig (nbr : ℕ → Finset ℤ) : Config :=
  { state := fun i =>
      if i = 0 then (bootstrapRoot (initState 0 (nbr 0))).1
      else initState (i : ℤ) (nbr i),
    chan := fun j i =>
      if j = 0 ∧ (i : ℤ) ∈ nbr 0 then [Msg.discover [0, (i : ℤ)]] else [] }

/-- Configurations reachable from the initial one by scheduler steps. -/
def Reachable (N : ℕ) (nbr : ℕ → Finset ℤ) (c : Config) : Prop :=
  Relation.ReflTransGen (Step N) (initConfig nbr) c

/-- A well-formed undirected input graph on ranks `[0, N)`: neighbour ranks
are valid and there are no self-loops. -/
def ValidNbr (N : ℕ) (nbr : ℕ → Finset ℤ) : Prop :=
  ∀ i, i < N → ∀ x ∈ nbr i, 0 ≤ x ∧ x < N ∧ x ≠ (i : ℤ)

/-- The process standing at rank `x` is mounted (in the state map `stf`). -/
def mountedAt (stf : ℕ → NodeState) (x : ℤ) : Prop :=
  (stf x.toNat).mounted = true

/-- Coherence of a path `q` with respect to a state map: at every position
of `q` except the last one, the process standing there holds a current path
that does not strictly dominate (`path_order` ≠ 1) the corresponding initial
segment of `q`.  Paths sent in messages were built by successive appends,
and each process's path only improves over time. -/
def Coh (stf : ℕ → NodeState) (q : List ℤ) : Prop :=
  ∀ k, k + 1 < q.length →
    path_order ((stf (q.getD k 0).toNat).graph_path) (q.take (k + 1)) ≠ 1

/-- The inductive invariant of the system: shape of every process state and
of every in-flight DISCOVER payload. -/
structure Inv (N : ℕ) (c : Config) : Prop where
  children_ok : ∀ i, i < N →
    ∀ x ∈ (c.state i).children, 0 ≤ x ∧ x < N ∧ x ≠ (i : ℤ)
  path_ok : ∀ i, i < N → (c.state i).mounted = true →
    (c.state i).graph_path ≠ [] ∧
    (c.state i).graph_path.getD ((c.state i).graph_path.length - 1) 0 = (i : ℤ) ∧
    (∀ x ∈ (c.state i).graph_path, 0 ≤ x ∧ x < N) ∧
    (c.state i).graph_path.Nodup ∧
    (∀ x ∈ (c.state i).graph_path, mountedAt c.state x) ∧
    Coh c.state (c.state i).graph_path
  parent_ok : ∀ i, i < N → i ≠ 0 → (c.state i).mounted = true →
    0 ≤ (c.state i).parent ∧ (c.state i).parent < N ∧
    (c.state i).parent ≠ (i : ℤ) ∧
    2 ≤ (c.state i).graph_path.length ∧
    (c.state i).graph_path.getD ((c.state i).graph_path.length - 2) 0
      = (c.state i).parent
  root_ok : (c.state 0).mounted = true ∧ (c.state 0).graph_path = [0] ∧
    (c.state 0).parent = -1
  msg_ok : ∀ j i, j < N → i < N → ∀ q, Msg.discover q ∈ c.chan j i →
    2 ≤ q.length ∧
    q.getD (q.length - 1) 0 = (i : ℤ) ∧
    q.getD (q.length - 2) 0 = (j : ℤ) ∧
    (∀ x ∈ q, 0 ≤ x ∧ x < N) ∧
    q.dropLast.Nodup ∧
    (∀ x ∈ q.dropLast, mountedAt c.state x) ∧
    Coh c.state q
  self_empty : ∀ i, c.chan i i = []

/-- The triangle graph on ranks 0, 1, 2 (all three undirected edges); used
to exhibit a reachable configuration entering case D. -/
def triNbr : ℕ → Finset ℤ := fun i =>
  if i = 0 then {1, 2} else if i = 1 then {0, 2} else if i = 2 then {0, 1} else ∅

/-- A concrete schedule on the triangle: the root's DISCOVERs reach 1 then
2, then 2 receives 1's DISCOVER `[0,1,2]`, adopts it and sends
`[0,1,2,0]` back to the root — a pending case-D message at the root. -/
def wc0 : Config := initConfig triNbr

def wc1 : Config := applyDeliver wc0 0 1 (Msg.discover [0, 1]) []

def wc2 : Config := applyDeliver wc1 0 2 (Msg.discover [0, 2]) []

def wc3 : Config := applyDeliver wc2 1 2 (Msg.discover [0, 1, 2]) []

/-! ### Erdős–Rényi generator (src/erdos_renyi_gen.cpp) -/

/-- The edge list built by the generator (lines 22-32): for every pair
`i < j < n`, when the random draw for the pair is at most `frac`, both
`(i, j)` and `(j, i)` are appended.  `draw i j` models
`(double)rand() / RAND_MAX`, a value in `[0, 1]`.  The program sorts the
list before printing; sorting does not change the set of edges, which is all
connectivity depends on. -/
def erEdges (n : ℕ) (frac : ℚ) (draw : ℕ → ℕ → ℚ) : List (ℕ × ℕ) :=
  (List.range n).flatMap (fun i =>
    (List.range' (i + 1) (n - (i + 1))).flatMap (fun j =>
      if draw i j ≤ frac then [(i, j), (j, i)] else []))

/-- Adjacency in an edge list. -/
def erAdj (edges : List (ℕ × ℕ)) (u v : ℕ) : Bool :=
  decide ((u, v) ∈ edges)

/-- One expansion step of reachability from a node set. -/
def reachStep (n : ℕ) (edges : List (ℕ × ℕ)) (S : Finset ℕ) : Finset ℕ :=
  S ∪ (Finset.range n).filter (fun v => ∃ u ∈ S, erAdj edges u v = true)

/-- The graph `(range n, edges)` is connected (to node 0): every node is
reached from node 0 within `n` expansion steps. -/
def erConnected (n : ℕ) (edges : List (ℕ × ℕ)) : Prop :=
  ∀ v ∈ Finset.range n, v ∈ (reachStep n edges)^[n] {0}

/-! ## Theorems -/

/-! ### The comparator -/

theorem path_order_nil_left (q : List ℤ) : path_order [] q = 0 := by
  cases q <;> rfl

theorem path_order_nil_right (p : List ℤ) : path_order p [] = 0 := by
  cases p <;> rfl

theorem path_order_cons (a b : ℤ) (p q : List ℤ) :
    path_order (a :: p) (b :: q) =
      if a < b then -1 else if b < a then 1 else path_order p q := rfl

theorem path_order_eq_zero_iff (p q : List ℤ) :
    path_order p q = 0 ↔
      ∀ i, i < min p.length q.length → p.getD i 0 = q.getD i 0 := by
  induction p generalizing q with
  | nil => simp [path_order_nil_left]
  | cons a p ih =>
    cases q with
    | nil => simp [path_order_nil_right]
    | cons b q =>
      rw [path_order_cons]
      rcases lt_trichotomy a b with hab | hab | hab
      · rw [if_pos hab]
        constructor
        · intro h; exact absurd h (by norm_num)
        · intro h
          have h0 := h 0 (by simp [Nat.lt_min])
          simp only [List.getD_cons_zero] at h0
          omega
      · subst hab
        rw [if_neg (lt_irrefl a), if_neg (lt_irrefl a), ih]
        constructor
        · intro h i hi
          match i with
          | 0 => simp
          | Nat.succ i =>
            simp only [List.getD_cons_succ]
            refine h i ?_
            simp only [List.length_cons, Nat.lt_min] at hi ⊢
            omega
        · intro h i hi
          have := h (i + 1) (by simp only [List.length_cons, Nat.lt_min] at hi ⊢; omega)
          simpa using this
      · rw [if_neg (by omega : ¬ a < b), if_pos hab]
        constructor
        · intro h; exact absurd h (by norm_num)
        · intro h
          have h0 := h 0 (by simp [Nat.lt_min])
          simp only [List.getD_cons_zero] at h0
          omega

theorem path_order_eq_neg_one_iff (p q : List ℤ) :
    path_order p q = -1 ↔
      ∃ i, i < min p.length q.length ∧ p.getD i 0 < q.getD i 0 ∧
        ∀ j, j < i → p.getD j 0 = q.getD j 0 := by
  induction p generalizing q with
  | nil => simp [path_order_nil_left]
  | cons a p ih =>
    cases q with
    | nil => simp [path_order_nil_right]
    | cons b q =>
      rw [path_order_cons]
      rcases lt_trichotomy a b with hab | hab | hab
      · rw [if_pos hab]
        constructor
        · intro _
          exact ⟨0, by simp [Nat.lt_min], by simpa using hab, by omega⟩
        · intro _; rfl
      · subst hab
        rw [if_neg (lt_irrefl a), if_neg (lt_irrefl a), ih]
        constructor
        · rintro ⟨i, hi, hlt, hpre⟩
          refine ⟨i + 1, ?_, by simpa using hlt, ?_⟩
          · simp only [List.length_cons, Nat.lt_min] at hi ⊢; omega
          · intro j hj
            match j with
            | 0 => simp
            | Nat.succ j =>
              simp only [List.getD_cons_succ]
              exact hpre j (by omega)
        · rintro ⟨i, hi, hlt, hpre⟩
          match i with
          | 0 => simp only [List.getD_cons_zero] at hlt; omega
          | Nat.succ i =>
            refine ⟨i, ?_, by simpa using hlt, fun j hj => ?_⟩
            · simp only [List.length_cons, Nat.lt_min] at hi ⊢; omega
            · have := hpre (j + 1) (by omega)
              simpa using this
      · rw [if_neg (by omega : ¬ a < b), if_pos hab]
        constructor
        · intro h; exact absurd h (by norm_num)
        · rintro ⟨i, hi, hlt, hpre⟩
          match i with
          | 0 => simp only [List.getD_cons_zero] at hlt; omega
          | Nat.succ i =>
            have := hpre 0 (by omega)
            simp only [List.getD_cons_zero] at this
            omega

theorem path_order_swap (p q : List ℤ) : path_order p q = - path_order q p := by
  induction p generalizing q with
  | nil => simp [path_order_nil_left, path_order_nil_right]
  | cons a p ih =>
    cases q with
    | nil => simp [path_order_nil_left, path_order_nil_right]
    | cons b q =>
      rw [path_order_cons, path_order_cons]
      rcases lt_trichotomy a b with hab | hab | hab
      · simp only [if_pos hab, if_neg (by omega : ¬ b < a)]; try norm_num
      · subst hab
        rw [if_neg (lt_irrefl a), if_neg (lt_irrefl a), if_neg (lt_irrefl a),
          if_neg (lt_irrefl a)]
        exact ih q
      · simp only [if_neg (by omega : ¬ a < b), if_pos hab]; try norm_num

theorem path_order_eq_one_iff (p q : List ℤ) :
    path_order p q = 1 ↔
      ∃ i, i < min p.length q.length ∧ q.getD i 0 < p.getD i 0 ∧
        ∀ j, j < i → p.getD j 0 = q.getD j 0 := by
  rw [path_order_swap]
  have : - path_order q p = 1 ↔ path_order q p = -1 := by omega
  rw [this, path_order_eq_neg_one_iff]
  constructor
  · rintro ⟨i, hi, hlt, hpre⟩
    exact ⟨i, by omega, hlt, fun j hj => (hpre j hj).symm⟩
  · rintro ⟨i, hi, hlt, hpre⟩
    exact ⟨i, by omega, hlt, fun j hj => (hpre j hj).symm⟩

theorem path_order_self (p : List ℤ) : path_order p p = 0 := by
  rw [path_order_eq_zero_iff]; intro i _; rfl

theorem path_order_cases (p q : List ℤ) :
    path_order p q = -1 ∨ path_order p q = 0 ∨ path_order p q = 1 := by
  induction p generalizing q with
  | nil => simp [path_order_nil_left]
  | cons a p ih =>
    cases q with
    | nil => simp [path_order_nil_right]
    | cons b q =>
      rw [path_order_cons]
      rcases lt_trichotomy a b with hab | hab | hab
      · rw [if_pos hab]; norm_num
      · subst hab; rw [if_neg (lt_irrefl a), if_neg (lt_irrefl a)]; exact ih q
      · rw [if_neg (by omega : ¬ a < b), if_pos hab]; norm_num

/-- If a process improves its path from `a` to the strictly better `b`
(`path_order a b = 1`), any path `c` that `a` did not strictly dominate is
still not strictly dominated by `b`. -/
theorem path_order_improve {a b c : List ℤ} (h1 : path_order a b = 1)
    (h2 : path_order a c ≠ 1) : path_order b c ≠ 1 := by
  induction a generalizing b c with
  | nil => rw [path_order_nil_left] at h1; exact absurd h1 (by norm_num)
  | cons x a ih =>
    cases b with
    | nil => rw [path_order_nil_right] at h1; exact absurd h1 (by norm_num)
    | cons y b =>
      cases c with
      | nil => rw [path_order_nil_right]; norm_num
      | cons z c =>
        rw [path_order_cons] at h1 h2 ⊢
        rcases lt_trichotomy x y with hxy | hxy | hxy
        · rw [if_pos hxy] at h1; exact absurd h1 (by norm_num)
        · subst hxy
          rw [if_neg (lt_irrefl x), if_neg (lt_irrefl x)] at h1
          rcases lt_trichotomy x z with hxz | hxz | hxz
          · rw [if_pos hxz]; norm_num
          · subst hxz
            rw [if_neg (lt_irrefl x), if_neg (lt_irrefl x)] at h2
            rw [if_neg (lt_irrefl x), if_neg (lt_irrefl x)]
            exact ih h1 h2
          · rw [if_neg (by omega : ¬ x < z), if_pos hxz] at h2
            exact absurd rfl h2
        · rcases lt_trichotomy y z with hyz | hyz | hyz
          · rw [if_pos hyz]; norm_num
          · subst hyz
            rw [if_neg (by omega : ¬ x < y), if_pos (by omega : y < x)] at h2
            exact absurd rfl h2
          · rw [if_neg (by omega : ¬ x < z), if_pos (by omega : z < x)] at h2
            exact absurd rfl h2

/-- C4: `path_order` (src/Musaev-PDDFS.cpp lines 177-187) scans the first
`min (|p|, |q|)` positions from index 0 upward and returns -1 at the first
index where `p` is strictly smaller, +1 at the first index where `p` is
strictly larger, and 0 when all compared positions agree (in particular 0
whenever one sequence extends the other). -/
theorem path_order_first_diff_spec (p q : List ℤ) :
    (path_order p q = 0 ↔
      ∀ i, i < min p.length q.length → p.getD i 0 = q.getD i 0) ∧
    (path_order p q = -1 ↔
      ∃ i, i < min p.length q.length ∧ p.getD i 0 < q.getD i 0 ∧
        ∀ j, j < i → p.getD j 0 = q.getD j 0) ∧
    (path_order p q = 1 ↔
      ∃ i, i < min p.length q.length ∧ q.getD i 0 < p.getD i 0 ∧
        ∀ j, j < i → p.getD j 0 = q.getD j 0) :=
  ⟨path_order_eq_zero_iff p q, path_order_eq_neg_one_iff p q,
    path_order_eq_one_iff p q⟩

/-! ### Local handler behaviour -/

/-- C6: on a DISCOVER from the current parent while mounted
(src/Musaev-PDDFS.cpp lines 269-279), the path is replaced exactly when the
comparator returns +1; no message is emitted, and parent, children,
terminated_children and is_parent_rejected are unchanged. -/
theorem discover_from_parent_spec (st : NodeState) (s : ℤ) (q : List ℤ)
    (hm : st.mounted = true) (hs : s = st.parent) :
    handleMessage s (.discover q) st =
      ({ st with graph_path :=
          if path_order st.graph_path q = 1 then q else st.graph_path }, []) := by
  subst hs
  obtain ⟨r, mo, pa, gp, ch, tc, ip⟩ := st
  simp only at hm
  subst hm
  by_cases h1 : path_order gp q = 1 <;> simp [handleMessage, h1]

theorem discover_from_parent_spec_witness :
    handleMessage 0 (.discover [2]) ⟨1, true, 0, [3], {2}, ∅, false⟩ =
      (⟨1, true, 0, [2], {2}, ∅, false⟩, []) := by
  have h := discover_from_parent_spec ⟨1, true, 0, [3], {2}, ∅, false⟩ 0 [2] rfl rfl
  simpa [path_order] using h

/-- C2 (amended): on a DISCOVER with a strictly better path `q` from a
non-parent `s` while mounted (lines 287-300), the path becomes `q`; unless
is_parent_rejected was set, the former parent is inserted into children AND
is sent a DISCOVER with the new path (when is_parent_rejected was set,
neither happens); then parent becomes `s`, is_parent_rejected is cleared and
`s` is removed from children. -/
theorem discover_better_nonparent_spec (st : NodeState) (s : ℤ) (q : List ℤ)
    (hm : st.mounted = true) (hs : s ≠ st.parent)
    (ho : path_order st.graph_path q = 1) :
    handleMessage s (.discover q) st =
      if st.is_parent_rejected = true then
        ({ st with graph_path := q, parent := s, is_parent_rejected := false,
                   children := st.children.erase s }, [])
      else
        ({ st with graph_path := q, parent := s, is_parent_rejected := false,
                   children := (insert st.parent st.children).erase s },
         [(st.parent, Msg.discover (q ++ [st.parent]))]) := by
  by_cases hr : st.is_parent_rejected = true <;>
    simp [handleMessage, hm, hs, ho, hr]

theorem discover_better_nonparent_spec_witness :
    handleMessage 3 (.discover [0, 0, 2]) ⟨2, true, 1, [0, 1, 2], ∅, ∅, false⟩ =
      (⟨2, true, 3, [0, 0, 2], {1}, ∅, false⟩,
        [((1 : ℤ), Msg.discover [0, 0, 2, 1])]) := by
  have h := discover_better_nonparent_spec ⟨2, true, 1, [0, 1, 2], ∅, ∅, false⟩
    3 [0, 0, 2] rfl (by decide) (by decide)
  rw [h]
  decide

/-- C2 counterexample: with is_parent_rejected set, the code does NOT insert
the former parent into children (the insertion sits inside the
`!is_parent_rejected` guard at lines 292-296), while the claim asserts the
former parent is always inserted. -/
theorem discover_better_nonparent_counterexample :
    let st : NodeState := ⟨2, true, 1, [0, 1, 2], ∅, ∅, true⟩
    st.mounted = true ∧ (3 : ℤ) ≠ st.parent ∧
    path_order st.graph_path [0, 0, 2] = 1 ∧ st.is_parent_rejected = true ∧
    st.parent ∉ (handleMessage 3 (.discover [0, 0, 2]) st).1.children ∧
    (handleMessage 3 (.discover [0, 0, 2]) st).2 = [] := by
  decide

/-- C3: on a DISCOVER from a non-parent closing a cycle (comparator returns
0, lines 301-314), with `t = q[L]` for `L = |graph_path|`: if `t < s` then
`s` is removed from children and rejected, otherwise `t` is; the rejected
rank is always `max s t`, and no other field changes. -/
theorem discover_cycle_spec (st : NodeState) (s : ℤ) (q : List ℤ)
    (hm : st.mounted = true) (hs : s ≠ st.parent)
    (ho : path_order st.graph_path q = 0)
    (hlen : st.graph_path.length < q.length) :
    (handleMessage s (.discover q) st =
      if q.getD st.graph_path.length 0 < s then
        ({ st with children := st.children.erase s }, [(s, Msg.reject)])
      else
        ({ st with children := st.children.erase (q.getD st.graph_path.length 0) },
         [(q.getD st.graph_path.length 0, Msg.reject)])) ∧
    (if q.getD st.graph_path.length 0 < s then s else q.getD st.graph_path.length 0)
      = max s (q.getD st.graph_path.length 0) := by
  constructor
  · by_cases ht : q.getD st.graph_path.length 0 < s <;>
      simp [handleMessage, hm, hs, ho, ht]
  · rcases le_or_lt s (q.getD st.graph_path.length 0) with h | h
    · rw [if_neg (by omega), max_eq_right h]
    · rw [if_pos h, max_eq_left (le_of_lt h)]

theorem discover_cycle_spec_witness :
    handleMessage 2 (.discover [0, 1, 3, 1]) ⟨1, true, 0, [0, 1], {2, 3}, ∅, false⟩ =
      (⟨1, true, 0, [0, 1], {2}, ∅, false⟩, [((3 : ℤ), Msg.reject)]) := by
  have h := (discover_cycle_spec ⟨1, true, 0, [0, 1], {2, 3}, ∅, false⟩
    2 [0, 1, 3, 1] rfl (by decide) (by decide) (by decide)).1
  rw [h]
  decide

/-- C8 (amended): a TERMINATE from any sender — child or not — is recorded
by inserting the sender into terminated_children, no message is emitted and
the process continues; the code performs no membership check and never
aborts (lines 338-346). -/
theorem terminate_records_spec (s : ℤ) (st : NodeState) :
    handleMessage s .terminate st =
      ({ st with terminated_children := insert s st.terminated_children }, []) := rfl

/-- C8 counterexample: a TERMINATE from rank 5, which is not in the
children set, is simply recorded and the handler returns normally; nothing
fatal happens, contradicting the claim that the process aborts rather than
recording the sender. -/
theorem terminate_nonchild_counterexample :
    let st : NodeState := ⟨0, true, -1, [0], {2}, ∅, false⟩
    (5 : ℤ) ∉ st.children ∧
    (handleMessage 5 .terminate st).1.terminated_children = {5} ∧
    (handleMessage 5 .terminate st).2 = [] := by
  decide

/-! ### The event loop -/

/-- C1 (amended): whenever the event loop exits, it does so right after
processing a message that leaves `|terminated_children| = |children|` — a
cardinality test (line 352), which coincides with set equality exactly when
`terminated_children ⊆ children`; on exit a process of rank ≠ 0 sends one
TERMINATE to its parent, the children set is emitted, and the loop returns
(so the process ends exactly once). -/
theorem loop_exit_spec (msgs : List (ℤ × Msg)) (st stF : NodeState)
    (trail : List (ℤ × Msg)) (em : Finset ℤ)
    (h : runLoop st msgs = .exited stF trail em) :
    stF.terminated_children.card = stF.children.card ∧
    em = stF.children ∧
    trail = (if stF.rank = 0 then [] else [(stF.parent, Msg.terminate)]) ∧
    (stF.terminated_children ⊆ stF.children →
      stF.terminated_children = stF.children) := by
  induction msgs generalizing st with
  | nil => simp [runLoop] at h
  | cons p rest ih =>
    obtain ⟨s, m⟩ := p
    simp only [runLoop] at h
    split at h
    case isTrue hc =>
      cases h
      exact ⟨hc, rfl, rfl,
        fun hsub => Finset.eq_of_subset_of_card_le hsub (le_of_eq hc.symm)⟩
    case isFalse hc =>
      exact ih _ h

theorem loop_exit_spec_witness :
    (⟨5, true, 0, [0, 5], {7}, {7}, false⟩ : NodeState).terminated_children.card
        = (⟨5, true, 0, [0, 5], {7}, {7}, false⟩ : NodeState).children.card ∧
    ({7} : Finset ℤ) = (⟨5, true, 0, [0, 5], {7}, {7}, false⟩ : NodeState).children ∧
    [((0 : ℤ), Msg.terminate)]
        = (if (⟨5, true, 0, [0, 5], {7}, {7}, false⟩ : NodeState).rank = 0 then []
           else [((⟨5, true, 0, [0, 5], {7}, {7}, false⟩ : NodeState).parent,
             Msg.terminate)]) ∧
    ((⟨5, true, 0, [0, 5], {7}, {7}, false⟩ : NodeState).terminated_children
        ⊆ (⟨5, true, 0, [0, 5], {7}, {7}, false⟩ : NodeState).children →
      (⟨5, true, 0, [0, 5], {7}, {7}, false⟩ : NodeState).terminated_children
        = (⟨5, true, 0, [0, 5], {7}, {7}, false⟩ : NodeState).children) :=
  loop_exit_spec [(7, Msg.terminate)] ⟨5, true, 0, [0, 5], {7}, ∅, false⟩ _ _ _
    (by decide)

/-- C1 counterexample: the exit test compares sizes, not sets.  A process
with children {0, 2} mounts on a DISCOVER from 0 (children becomes {2}),
then receives a TERMINATE from its parent 0 (which is not in children):
`terminated_children = {0}` and `children = {2}` have equal size, so the
loop exits although the two sets are different. -/
theorem loop_exit_set_counterexample :
    runLoop (initState 1 {0, 2}) [(0, .discover [0, 1]), (0, .terminate)]
      = .exited ⟨1, true, 0, [0, 1], {2}, {0}, false⟩ [((0 : ℤ), Msg.terminate)] {2} ∧
    ({0} : Finset ℤ) ≠ ({2} : Finset ℤ) := by
  decide

/-- C9: with a single node (N = 1: no edges, no neighbours) the root sends
nothing at bootstrap, no message ever arrives, and the loop's exit test —
which is only evaluated after a message has been received (line 352 sits at
the bottom of the loop body) — is never reached: the run stays blocked in
`MPI_Probe` forever, even though the termination predicate
(terminated_children = children = ∅) already holds at the start. -/
theorem single_node_root_blocks :
    runLoop (bootstrapRoot (initState 0 ∅)).1 []
      = .blocked (bootstrapRoot (initState 0 ∅)).1 ∧
    (bootstrapRoot (initState 0 ∅)).2 = [] ∧
    (bootstrapRoot (initState 0 ∅)).1.terminated_children
      = (bootstrapRoot (initState 0 ∅)).1.children := by
  refine ⟨rfl, ?_, rfl⟩
  simp [bootstrapRoot, initState, discoverAll]

/-! ### The root invariant -/

/-- One handler step at a node in the root's configuration (mounted, parent
-1, path [0], flag clear): with a nonnegative sender rank and nonnegative
payload ranks, parent, mounted, graph_path and is_parent_rejected are all
unchanged. -/
theorem root_step_invariant (st : NodeState) (s : ℤ) (m : Msg)
    (hp : st.parent = -1) (hm : st.mounted = true) (hg : st.graph_path = [0])
    (hr : st.is_parent_rejected = false) (hs : 0 ≤ s)
    (hq : ∀ x ∈ msgPayload m, 0 ≤ x) :
    (handleMessage s m st).1.parent = -1 ∧
    (handleMessage s m st).1.mounted = true ∧
    (handleMessage s m st).1.graph_path = [0] ∧
    (handleMessage s m st).1.is_parent_rejected = false := by
  obtain ⟨r, mo, pa, gp, ch, tc, ip⟩ := st
  dsimp only at hp hm hg hr
  subst hp; subst hm; subst hg; subst hr
  have hs1 : ¬ s = (-1 : ℤ) := by omega
  cases m with
  | discover q =>
    have ho : path_order [0] q ≠ 1 := by
      cases q with
      | nil => rw [path_order_nil_right]; norm_num
      | cons b q' =>
        have hb : (0 : ℤ) ≤ b := hq b (by simp [msgPayload])
        rw [path_order_cons]
        rcases eq_or_lt_of_le hb with h | h
        · rw [if_neg (by omega), if_neg (by omega), path_order_nil_left]
          norm_num
        · rw [if_pos h]; norm_num
    rcases path_order_cases [0] q with h | h | h
    · simp [handleMessage, hs1, h]
    · simp only [handleMessage, hs1, h]
      norm_num
      split <;> simp
    · exact absurd h ho
  | reject => simp [handleMessage, hs1]
  | terminate => simp [handleMessage]

/-- The root invariant carried over any list of valid inbound messages. -/
theorem root_msgs_invariant (msgs : List (ℤ × Msg)) (st : NodeState)
    (hp : st.parent = -1) (hm : st.mounted = true) (hg : st.graph_path = [0])
    (hr : st.is_parent_rejected = false)
    (hmsgs : ∀ p ∈ msgs, 0 ≤ p.1 ∧ ∀ x ∈ msgPayload p.2, 0 ≤ x) :
    (runMsgs st msgs).parent = -1 ∧ (runMsgs st msgs).mounted = true ∧
    (runMsgs st msgs).graph_path = [0] ∧
    (runMsgs st msgs).is_parent_rejected = false := by
  induction msgs generalizing st with
  | nil => exact ⟨hp, hm, hg, hr⟩
  | cons p rest ih =>
    obtain ⟨s, m⟩ := p
    have h1 := root_step_invariant st s m hp hm hg hr
      (hmsgs (s, m) (List.mem_cons_self _ _)).1
      (hmsgs (s, m) (List.mem_cons_self _ _)).2
    simp only [runMsgs, List.foldl_cons]
    exact ih _ h1.1 h1.2.1 h1.2.2.1 h1.2.2.2
      (fun p hmem => hmsgs p (List.mem_cons_of_mem _ hmem))

/-- C7: at the root (rank 0), for every sequence of inbound messages whose
senders and DISCOVER payloads consist of ranks in [0, N), the parent field
stays -1 (the code's ⊥, never assigned) and is_parent_rejected stays false
after processing every message. -/
theorem root_parent_never_assigned (N : ℤ) (nb : Finset ℤ)
    (msgs : List (ℤ × Msg))
    (hmsgs : ∀ p ∈ msgs, (0 ≤ p.1 ∧ p.1 < N) ∧
      ∀ x ∈ msgPayload p.2, 0 ≤ x ∧ x < N) :
    (runMsgs (bootstrapRoot (initState 0 nb)).1 msgs).parent = -1 ∧
    (runMsgs (bootstrapRoot (initState 0 nb)).1 msgs).is_parent_rejected = false := by
  have h := root_msgs_invariant msgs (bootstrapRoot (initState 0 nb)).1 rfl rfl rfl rfl
    (fun p hmem => ⟨(hmsgs p hmem).1.1, fun x hx => ((hmsgs p hmem).2 x hx).1⟩)
  exact ⟨h.1, h.2.2.2⟩

theorem root_parent_never_assigned_witness :
    (runMsgs (bootstrapRoot (initState 0 {1, 2})).1
      [(1, Msg.discover [0, 1, 0]), (2, Msg.reject), (1, Msg.terminate)]).parent = -1 ∧
    (runMsgs (bootstrapRoot (initState 0 {1, 2})).1
      [(1, Msg.discover [0, 1, 0]), (2, Msg.reject), (1, Msg.terminate)]).is_parent_rejected
      = false :=
  root_parent_never_assigned 3 {1, 2}
    [(1, Msg.discover [0, 1, 0]), (2, Msg.reject), (1, Msg.terminate)] (by decide)

/-! ### The Erdős–Rényi generator -/

theorem erEdges_mem (n : ℕ) (frac : ℚ) (draw : ℕ → ℕ → ℚ) (i j : ℕ)
    (hij : i < j) (hj : j < n) (hd : draw i j ≤ frac) :
    (i, j) ∈ erEdges n frac draw := by
  unfold erEdges
  rw [List.mem_flatMap]
  refine ⟨i, List.mem_range.mpr (lt_trans hij hj), ?_⟩
  rw [List.mem_flatMap]
  refine ⟨j, ?_, ?_⟩
  · rw [List.mem_range']
    exact ⟨j - (i + 1), by omega, by omega⟩
  · rw [if_pos hd]; simp

theorem subset_reachStep (n : ℕ) (edges : List (ℕ × ℕ)) (S : Finset ℕ) :
    S ⊆ reachStep n edges S := Finset.subset_union_left

theorem subset_reachStep_iterate (n : ℕ) (edges : List (ℕ × ℕ)) (m : ℕ)
    (S : Finset ℕ) : S ⊆ (reachStep n edges)^[m] S := by
  induction m generalizing S with
  | zero => simp
  | succ m ih =>
    rw [Function.iterate_succ_apply]
    exact (subset_reachStep n edges S).trans (ih _)

/-- C10 (amended): with edge probability p = 1 the generator emits every
pair (the complete graph), which is connected; for p < 1 connectivity of
the output is not guaranteed, as the generator performs no connectivity
check (see the counterexample). -/
theorem er_connected_of_p_one (n : ℕ) (hn : 2 ≤ n) (draw : ℕ → ℕ → ℚ)
    (hd : ∀ i j, draw i j ≤ 1) :
    erConnected n (erEdges n 1 draw) := by
  intro v hv
  have hstep : v ∈ reachStep n (erEdges n 1 draw) {0} := by
    rcases Nat.eq_zero_or_pos v with h0 | h0
    · subst h0; exact subset_reachStep _ _ _ (by simp)
    · unfold reachStep
      refine Finset.mem_union_right _ ?_
      rw [Finset.mem_filter]
      refine ⟨hv, ⟨0, by simp, ?_⟩⟩
      unfold erAdj
      rw [decide_eq_true_eq]
      exact erEdges_mem n 1 draw 0 v h0 (Finset.mem_range.mp hv) (hd 0 v)
  set f := reachStep n (erEdges n 1 draw) with hf
  have hiter : f^[n] {0} = f^[n - 1] (f {0}) := by
    conv_lhs => rw [show n = (n - 1) + 1 by omega]
    rw [Function.iterate_succ_apply]
  rw [hiter, hf]
  exact subset_reachStep_iterate _ _ _ _ hstep

theorem er_connected_of_p_one_witness :
    2 ≤ 2 ∧ erConnected 2 (erEdges 2 1 (fun _ _ => 1)) :=
  ⟨by norm_num,
    er_connected_of_p_one 2 (by norm_num) (fun _ _ => 1) (fun _ _ => le_refl 1)⟩

/-- C10 counterexample: N = 2 and p = 1/2 lie in the claimed range, but a
rand() stream whose normalised draw is 1 (> 1/2) makes the generator emit no
edge at all: the output graph on two nodes is disconnected. -/
theorem er_connected_counterexample :
    (0 : ℚ) < 1/2 ∧ (1/2 : ℚ) ≤ 1 ∧ 2 ≤ 2 ∧
    ¬ erConnected 2 (erEdges 2 (1/2) (fun _ _ => 1)) := by
  refine ⟨by norm_num, by norm_num, le_refl 2, ?_⟩
  have h12 : ¬ ((1 : ℚ) ≤ 1/2) := by norm_num
  have he : erEdges 2 (1/2) (fun _ _ => 1) = [] := by
    unfold erEdges
    simp only [if_neg h12]
    simp
  intro hcon
  have h1 := hcon 1 (by decide)
  rw [he] at h1
  have hfix : reachStep 2 [] {0} = {0} := by
    simp [reachStep, erAdj]
  rw [Function.iterate_fixed hfix 2] at h1
  simp at h1

/-! ### Toolkit for the global invariant -/

theorem getD_eq_getD_take (q : List ℤ) (n k : ℕ) (h : k < n) :
    (q.take n).getD k 0 = q.getD k 0 := by
  by_cases hk : k < q.length
  · rw [List.getD_eq_getElem _ _ (by simp [List.length_take]; omega),
      List.getD_eq_getElem _ _ hk]
    exact List.getElem_take _
  · rw [List.getD_eq_default _ _ (by simp [List.length_take]; omega),
      List.getD_eq_default _ _ (by omega)]

theorem getD_getLast (q : List ℤ) (h : q ≠ []) :
    q.getD (q.length - 1) 0 = q.getLast h := by
  have hl : 0 < q.length := List.length_pos.mpr h
  rw [List.getLast_eq_getElem, List.getD_eq_getElem _ _ (by omega)]

theorem getD_dropLast (q : List ℤ) (k : ℕ) (h : k + 1 < q.length) :
    q.dropLast.getD k 0 = q.getD k 0 := by
  rw [List.getD_eq_getElem _ _ (by simp [List.length_dropLast]; omega),
    List.getD_eq_getElem _ _ (by omega)]
  exact List.getElem_dropLast _ _ _

theorem mem_dropLast_getD (q : List ℤ) (x : ℤ) (hx : x ∈ q.dropLast) :
    ∃ k, k + 1 < q.length ∧ q.getD k 0 = x := by
  obtain ⟨k, hk, he⟩ := List.mem_iff_getElem.mp hx
  rw [List.getElem_dropLast] at he
  have hk' : k + 1 < q.length := by simp [List.length_dropLast] at hk; omega
  exact ⟨k, hk', by rw [List.getD_eq_getElem _ _ (by omega)]; exact he⟩

theorem getD_mem_dropLast (q : List ℤ) (k : ℕ) (h : k + 1 < q.length) :
    q.getD k 0 ∈ q.dropLast := by
  rw [← getD_dropLast q k h,
    List.getD_eq_getElem _ _ (by simp [List.length_dropLast]; omega)]
  exact List.getElem_mem _

theorem getD_mem (q : List ℤ) (k : ℕ) (h : k < q.length) : q.getD k 0 ∈ q := by
  rw [List.getD_eq_getElem _ _ h]
  exact List.getElem_mem _

theorem nodup_getD_inj (l : List ℤ) (h : l.Nodup) (a b : ℕ) (ha : a < l.length)
    (hb : b < l.length) (he : l.getD a 0 = l.getD b 0) : a = b := by
  rw [List.getD_eq_getElem _ _ ha, List.getD_eq_getElem _ _ hb] at he
  exact h.getElem_inj_iff.mp he

theorem nodup_concat_of (q : List ℤ) (d : ℤ) (h : q.Nodup) (hd : d ∉ q) :
    (q ++ [d]).Nodup := by
  rw [List.nodup_append]
  refine ⟨h, List.nodup_singleton d, ?_⟩
  intro a ha hb
  simp only [List.mem_singleton] at hb
  subst hb
  exact hd ha

theorem dropLast_concat_getD (q : List ℤ) (h : q ≠ []) :
    q.dropLast ++ [q.getD (q.length - 1) 0] = q := by
  rw [getD_getLast q h]
  exact List.dropLast_append_getLast h

theorem mem_dropLast_or_getLast (q : List ℤ) (h : q ≠ []) (x : ℤ) (hx : x ∈ q) :
    x ∈ q.dropLast ∨ x = q.getD (q.length - 1) 0 := by
  rw [← dropLast_concat_getD q h] at hx
  rcases List.mem_append.mp hx with h1 | h1
  · exact Or.inl h1
  · simp only [List.mem_singleton] at h1
    exact Or.inr h1

theorem getD_concat_self (q : List ℤ) (d : ℤ) :
    (q ++ [d]).getD q.length 0 = d := by
  rw [List.getD_eq_getElem _ _ (by simp)]
  simp

theorem pushSends_nil (i : ℕ) (ch : ℕ → ℕ → List Msg) :
    pushSends i [] ch = ch := rfl

theorem pushSends_cons (i : ℕ) (p : ℤ × Msg) (ps : List (ℤ × Msg))
    (ch : ℕ → ℕ → List Msg) :
    pushSends i (p :: ps) ch = pushSends i ps
      (fun a b => if a = i ∧ b = p.1.toNat then ch a b ++ [p.2] else ch a b) := rfl

theorem mem_pushSends (i : ℕ) (sends : List (ℤ × Msg)) (ch : ℕ → ℕ → List Msg)
    (a b : ℕ) (m' : Msg) (h : m' ∈ pushSends i sends ch a b) :
    m' ∈ ch a b ∨ (a = i ∧ ∃ p ∈ sends, p.1.toNat = b ∧ p.2 = m') := by
  induction sends generalizing ch with
  | nil => exact Or.inl h
  | cons p ps ih =>
    rw [pushSends_cons] at h
    rcases ih _ h with h1 | h1
    · by_cases hc : a = i ∧ b = p.1.toNat
      · rw [if_pos hc] at h1
        rcases List.mem_append.mp h1 with h2 | h2
        · exact Or.inl h2
        · simp only [List.mem_singleton] at h2
          exact Or.inr ⟨hc.1, p, List.mem_cons_self _ _, hc.2.symm, h2.symm⟩
      · rw [if_neg hc] at h1
        exact Or.inl h1
    · exact Or.inr ⟨h1.1, h1.2.choose,
        List.mem_cons_of_mem _ h1.2.choose_spec.1, h1.2.choose_spec.2⟩

theorem pushSends_empty_of (i : ℕ) (sends : List (ℤ × Msg))
    (ch : ℕ → ℕ → List Msg) (a b : ℕ) (hab : ch a b = [])
    (hd : ∀ p ∈ sends, ¬ (a = i ∧ p.1.toNat = b)) :
    pushSends i sends ch a b = [] := by
  rw [List.eq_nil_iff_forall_not_mem]
  intro m' hm'
  rcases mem_pushSends i sends ch a b m' hm' with h | ⟨ha, p, hp, hpb, _⟩
  · rw [hab] at h; exact List.not_mem_nil _ h
  · exact hd p hp ⟨ha, hpb⟩

/-- The root's one-element path `[0]` is never strictly dominated by a
payload of nonnegative ranks. -/
theorem path_order_root_ne_one (q : List ℤ) (hq : ∀ x ∈ q, 0 ≤ x) :
    path_order [0] q ≠ 1 := by
  cases q with
  | nil => rw [path_order_nil_right]; norm_num
  | cons b q' =>
    have hb : (0 : ℤ) ≤ b := hq b (List.mem_cons_self _ _)
    rw [path_order_cons]
    rcases eq_or_lt_of_le hb with h | h
    · rw [if_neg (by omega), if_neg (by omega), path_order_nil_left]; norm_num
    · rw [if_pos h]; norm_num

theorem coh_of_eq_paths (stf stf' : ℕ → NodeState) (q : List ℤ)
    (hp : ∀ x : ℕ, (stf' x).graph_path = (stf x).graph_path)
    (h : Coh stf q) : Coh stf' q := by
  intro k hk
  rw [Coh] at h
  rw [hp]
  exact h k hk

theorem coh_of_improve (stf stf' : ℕ → NodeState) (i : ℕ) (q : List ℤ)
    (hne : ∀ x : ℕ, x ≠ i → stf' x = stf x)
    (himp : path_order ((stf i).graph_path) ((stf' i).graph_path) = 1)
    (h : Coh stf q) : Coh stf' q := by
  intro k hk
  rw [Coh] at h
  by_cases hx : (q.getD k 0).toNat = i
  · have h0 := h k hk
    rw [hx] at h0 ⊢
    exact path_order_improve himp h0
  · rw [hne _ hx]
    exact h k hk

theorem coh_of_unmounted (stf stf' : ℕ → NodeState) (i : ℕ) (q : List ℤ)
    (hne : ∀ x : ℕ, x ≠ i → stf' x = stf x)
    (hum : (stf i).mounted = false)
    (hmnt : ∀ k, k + 1 < q.length → mountedAt stf (q.getD k 0))
    (h : Coh stf q) : Coh stf' q := by
  intro k hk
  rw [Coh] at h
  by_cases hx : (q.getD k 0).toNat = i
  · have h0 := hmnt k hk
    rw [mountedAt, hx, hum] at h0
    exact absurd h0 (by simp)
  · rw [hne _ hx]
    exact h k hk

theorem mountedAt_mono (stf stf' : ℕ → NodeState) (i : ℕ)
    (hne : ∀ x : ℕ, x ≠ i → stf' x = stf x)
    (hi : (stf i).mounted = true → (stf' i).mounted = true) (x : ℤ)
    (h : mountedAt stf x) : mountedAt stf' x := by
  by_cases hx : x.toNat = i
  · rw [mountedAt, hx] at h ⊢
    exact hi h
  · rw [mountedAt, hne _ hx]
    exact h

/-! Handler computation lemmas: one per branch of `handleMessage`. -/

theorem step_discover_unmounted (st : NodeState) (s : ℤ) (q : List ℤ)
    (hm : st.mounted = false) :
    handleMessage s (.discover q) st =
      ({ st with mounted := true, parent := s, children := st.children.erase s,
                 graph_path := q },
       discoverAll (st.children.erase s) q) := by
  simp [handleMessage, hm]

theorem step_discover_parent_adopt (st : NodeState) (s : ℤ) (q : List ℤ)
    (hm : st.mounted = true) (hs : s = st.parent)
    (ho : path_order st.graph_path q = 1) :
    handleMessage s (.discover q) st = ({ st with graph_path := q }, []) := by
  subst hs; simp [handleMessage, hm, ho]

theorem step_discover_parent_skip (st : NodeState) (s : ℤ) (q : List ℤ)
    (hm : st.mounted = true) (hs : s = st.parent)
    (ho : path_order st.graph_path q ≠ 1) :
    handleMessage s (.discover q) st = (st, []) := by
  subst hs; simp [handleMessage, hm, ho]

theorem step_discover_adopt_rej (st : NodeState) (s : ℤ) (q : List ℤ)
    (hm : st.mounted = true) (hs : s ≠ st.parent)
    (ho : path_order st.graph_path q = 1) (hr : st.is_parent_rejected = true) :
    handleMessage s (.discover q) st =
      ({ st with graph_path := q, parent := s, is_parent_rejected := false,
                 children := st.children.erase s }, []) := by
  simp [handleMessage, hm, hs, ho, hr]

theorem step_discover_adopt (st : NodeState) (s : ℤ) (q : List ℤ)
    (hm : st.mounted = true) (hs : s ≠ st.parent)
    (ho : path_order st.graph_path q = 1) (hr : st.is_parent_rejected = false) :
    handleMessage s (.discover q) st =
      ({ st with graph_path := q, parent := s, is_parent_rejected := false,
                 children := (insert st.parent st.children).erase s },
       [(st.parent, Msg.discover (q ++ [st.parent]))]) := by
  simp [handleMessage, hm, hs, ho, hr]

theorem step_discover_cycle_s (st : NodeState) (s : ℤ) (q : List ℤ)
    (hm : st.mounted = true) (hs : s ≠ st.parent)
    (ho : path_order st.graph_path q = 0)
    (ht : q.getD st.graph_path.length 0 < s) :
    handleMessage s (.discover q) st =
      ({ st with children := st.children.erase s }, [(s, Msg.reject)]) := by
  rw [List.getD_eq_getElem?_getD] at ht
  simp [handleMessage, hm, hs, ho, ht]

theorem step_discover_cycle_t (st : NodeState) (s : ℤ) (q : List ℤ)
    (hm : st.mounted = true) (hs : s ≠ st.parent)
    (ho : path_order st.graph_path q = 0)
    (ht : ¬ q.getD st.graph_path.length 0 < s) :
    handleMessage s (.discover q) st =
      ({ st with children := st.children.erase (q.getD st.graph_path.length 0) },
       [(q.getD st.graph_path.length 0, Msg.reject)]) := by
  rw [List.getD_eq_getElem?_getD] at ht
  simp [handleMessage, hm, hs, ho, ht]

theorem step_discover_echo (st : NodeState) (s : ℤ) (q : List ℤ)
    (hm : st.mounted = true) (hs : s ≠ st.parent)
    (ho : path_order st.graph_path q = -1) :
    handleMessage s (.discover q) st =
      (st, [(s, Msg.discover (st.graph_path ++ [s]))]) := by
  simp [handleMessage, hm, hs, ho]

theorem step_reject_parent (st : NodeState) (s : ℤ) (hs : s = st.parent) :
    handleMessage s .reject st = ({ st with is_parent_rejected := true }, []) := by
  subst hs; simp [handleMessage]

theorem step_reject_other (st : NodeState) (s : ℤ) (hs : s ≠ st.parent) :
    handleMessage s .reject st =
      ({ st with children := st.children.erase s }, []) := by
  simp [handleMessage, hs]

theorem step_terminate (st : NodeState) (s : ℤ) :
    handleMessage s .terminate st =
      ({ st with terminated_children := insert s st.terminated_children }, []) := rfl

/-- Key exclusion: a mounted process whose current path ends in its own rank
and is duplicate-free never finds its own rank strictly inside a coherent
payload that strictly dominates its path.  (Hence adopting such a payload
keeps the path duplicate-free.) -/
theorem adopt_no_self (stf : ℕ → NodeState) (i : ℕ) (q : List ℤ)
    (hne : (stf i).graph_path ≠ [])
    (hlast : (stf i).graph_path.getD ((stf i).graph_path.length - 1) 0
      = (i : ℤ))
    (hnd : (stf i).graph_path.Nodup)
    (hcoh : Coh stf q)
    (ho : path_order (stf i).graph_path q = 1)
    (k : ℕ) (hk : k + 1 < q.length) : q.getD k 0 ≠ (i : ℤ) := by
  intro hqk
  have hL : 0 < (stf i).graph_path.length := List.length_pos.mpr hne
  have hcohk := hcoh k hk
  rw [hqk, Int.toNat_natCast] at hcohk
  obtain ⟨d, hd, hlt, hpre⟩ :=
    (path_order_eq_one_iff (stf i).graph_path q).mp ho
  rw [Nat.lt_min] at hd
  by_cases hdk : d < k + 1
  · apply hcohk
    rw [path_order_eq_one_iff]
    refine ⟨d, ?_, ?_, ?_⟩
    · rw [Nat.lt_min]
      refine ⟨hd.1, ?_⟩
      rw [List.length_take, Nat.lt_min]
      exact ⟨hdk, hd.2⟩
    · rw [getD_eq_getD_take q (k + 1) d hdk]
      exact hlt
    · intro j hj
      rw [getD_eq_getD_take q (k + 1) j (by omega)]
      exact hpre j hj
  · have hk_lt_d : k < d := by omega
    have hpk : (stf i).graph_path.getD k 0 = (i : ℤ) := by
      rw [hpre k hk_lt_d]; exact hqk
    have hkp : k < (stf i).graph_path.length := by omega
    have hke : k = (stf i).graph_path.length - 1 :=
      nodup_getD_inj _ hnd k _ hkp (by omega) (by rw [hpk, hlast])
    omega

theorem adopt_not_mem_dropLast (stf : ℕ → NodeState) (i : ℕ) (q : List ℤ)
    (hne : (stf i).graph_path ≠ [])
    (hlast : (stf i).graph_path.getD ((stf i).graph_path.length - 1) 0
      = (i : ℤ))
    (hnd : (stf i).graph_path.Nodup)
    (hcoh : Coh stf q)
    (ho : path_order (stf i).graph_path q = 1) :
    (i : ℤ) ∉ q.dropLast := by
  intro hmem
  obtain ⟨k, hk, he⟩ := mem_dropLast_getD q _ hmem
  exact adopt_no_self stf i q hne hlast hnd hcoh ho k hk he

/-- From the invariant: a pending DISCOVER that a mounted process would
handle in case D (non-parent sender, comparator 0) extends at least two
positions past the receiver's current path. -/
theorem case_d_bound (N : ℕ) (c : Config) (hinv : Inv N c)
    (j i : ℕ) (hj : j < N) (hi : i < N) (hji : j ≠ i) (q : List ℤ)
    (hq : Msg.discover q ∈ c.chan j i)
    (hm : (c.state i).mounted = true)
    (hsp : (j : ℤ) ≠ (c.state i).parent)
    (ho : path_order (c.state i).graph_path q = 0) :
    (c.state i).graph_path.length + 2 ≤ q.length := by
  obtain ⟨hq2, hqlast, hq2nd, hqval, hqnd, hqmnt, hqcoh⟩ :=
    hinv.msg_ok j i hj hi q hq
  obtain ⟨hpne, hplast, hpval, hpnd, hpmnt, hpcoh⟩ := hinv.path_ok i hi hm
  set p := (c.state i).graph_path with hp
  have hL : 0 < p.length := List.length_pos.mpr hpne
  have hagree : ∀ k, k < min p.length q.length → p.getD k 0 = q.getD k 0 :=
    (path_order_eq_zero_iff p q).mp ho
  by_contra hcon
  push_neg at hcon
  rcases lt_trichotomy q.length p.length with hlen | hlen | hlen
  · have h1 : p.getD (q.length - 1) 0 = (i : ℤ) := by
      rw [hagree (q.length - 1) (by rw [Nat.lt_min]; omega)]
      exact hqlast
    have heq := nodup_getD_inj p hpnd (q.length - 1) (p.length - 1)
      (by omega) (by omega) (by rw [h1, hplast])
    omega
  · rcases Nat.eq_zero_or_pos i with hi0 | hi0
    · subst hi0
      have hroot : (c.state 0).graph_path = [0] := hinv.root_ok.2.1
      have hp1 : p.length = 1 := by rw [hp, hroot]; rfl
      omega
    · have hine : i ≠ 0 := by omega
      obtain ⟨hpar0, hparN, hpari, hplen2, hpar2nd⟩ := hinv.parent_ok i hi hine hm
      rw [← hp] at hpar2nd hplen2
      have h1 : p.getD (p.length - 2) 0 = (j : ℤ) := by
        rw [hagree (p.length - 2) (by rw [Nat.lt_min]; omega), ← hlen]
        exact hq2nd
      rw [h1] at hpar2nd
      exact hsp hpar2nd
  · have h1 : q.getD (q.length - 2) 0 = (i : ℤ) := by
      rw [show q.length - 2 = p.length - 1 by omega,
        ← hagree (p.length - 1) (by rw [Nat.lt_min]; omega)]
      exact hplast
    rw [hq2nd] at h1
    exact hji (by exact_mod_cast h1)

/-- The initial configuration satisfies the invariant. -/
theorem inv_init (N : ℕ) (nbr : ℕ → Finset ℤ) (hN : 0 < N)
    (hnbr : ValidNbr N nbr) : Inv N (initConfig nbr) := by
  constructor
  · -- children_ok
    intro i hi x hx
    have : (((initConfig nbr).state i).children) = nbr i := by
      unfold initConfig bootstrapRoot initState
      by_cases h0 : i = 0 <;> simp [h0]
    rw [this] at hx
    exact hnbr i hi x hx
  · -- path_ok
    intro i hi hm
    have h0 : i = 0 := by
      by_contra h0
      have : ((initConfig nbr).state i).mounted = false := by
        unfold initConfig initState
        simp [h0]
      rw [this] at hm
      exact absurd hm (by simp)
    subst h0
    have hpath : ((initConfig nbr).state 0).graph_path = [0] := by
      unfold initConfig bootstrapRoot initState
      simp
    refine ⟨by rw [hpath]; simp, by rw [hpath]; rfl, ?_, ?_, ?_, ?_⟩
    · rw [hpath]
      intro x hx
      simp only [List.mem_singleton] at hx
      subst hx
      exact ⟨le_refl 0, by exact_mod_cast hN⟩
    · rw [hpath]; exact List.nodup_singleton 0
    · rw [hpath]
      intro x hx
      simp only [List.mem_singleton] at hx
      subst hx
      rw [mountedAt]
      show ((initConfig nbr).state 0).mounted = true
      unfold initConfig bootstrapRoot initState
      simp
    · rw [hpath]
      intro k hk
      simp at hk
  · -- parent_ok
    intro i hi hine hm
    exfalso
    have : ((initConfig nbr).state i).mounted = false := by
      unfold initConfig initState
      simp [hine]
    rw [this] at hm
    exact absurd hm (by simp)
  · -- root_ok
    refine ⟨?_, ?_, ?_⟩ <;>
      (unfold initConfig bootstrapRoot initState; simp)
  · -- msg_ok
    intro j i hj hi q hq
    by_cases hc : j = 0 ∧ (i : ℤ) ∈ nbr 0
    · have : (initConfig nbr).chan j i = [Msg.discover [0, (i : ℤ)]] := by
        unfold initConfig
        dsimp only
        rw [if_pos hc]
      rw [this] at hq
      simp only [List.mem_singleton, Msg.discover.injEq] at hq
      subst hq
      obtain ⟨hi0, hiN, hii⟩ := hnbr 0 hN (i : ℤ) hc.2
      refine ⟨by simp, by rfl, ?_, ?_, ?_, ?_, ?_⟩
      · show ([0, (i : ℤ)].getD 0 0) = (j : ℤ)
        rw [hc.1]; rfl
      · intro x hx
        simp only [List.mem_cons, List.mem_singleton, List.not_mem_nil,
          or_false] at hx
        rcases hx with h | h
        · subst h; exact ⟨le_refl 0, by exact_mod_cast hN⟩
        · subst h; exact ⟨by omega, hiN⟩
      · show ([0] : List ℤ).Nodup
        exact List.nodup_singleton 0
      · intro x hx
        show mountedAt (initConfig nbr).state x
        have : x = 0 := by simpa using hx
        subst this
        rw [mountedAt]
        show ((initConfig nbr).state 0).mounted = true
        unfold initConfig bootstrapRoot initState
        simp
      · intro k hk
        have hk0 : k = 0 := by simp at hk; omega
        subst hk0
        have : ([0, (i : ℤ)].getD 0 0) = 0 := rfl
        rw [this]
        have hpath : ((initConfig nbr).state ((0 : ℤ).toNat)).graph_path = [0] := by
          unfold initConfig bootstrapRoot initState
          simp
        rw [hpath]
        show path_order [0] ([0, (i : ℤ)].take 1) ≠ 1
        have : ([0, (i : ℤ)].take 1) = [0] := rfl
        rw [this, path_order_self]
        norm_num
    · have : (initConfig nbr).chan j i = [] := by
        unfold initConfig
        dsimp only
        rw [if_neg hc]
      rw [this] at hq
      exact absurd hq (List.not_mem_nil _)
  · -- self_empty
    intro i
    unfold initConfig
    by_cases hc : i = 0 ∧ (i : ℤ) ∈ nbr 0
    · exfalso
      obtain ⟨h0, hmem⟩ := hc
      subst h0
      exact (hnbr 0 hN 0 hmem).2.2 rfl
    · dsimp only
      rw [if_neg hc]

theorem mem_discoverAll (dests : Finset ℤ) (path : List ℤ) (p : ℤ × Msg)
    (h : p ∈ discoverAll dests path) :
    p.1 ∈ dests ∧ p.2 = Msg.discover (path ++ [p.1]) := by
  unfold discoverAll at h
  obtain ⟨d, hd, he⟩ := List.mem_map.mp h
  rw [Finset.mem_sort] at hd
  constructor
  · rw [← he]; exact hd
  · rw [← he]

theorem nodup_of_dropLast (q : List ℤ) (hne : q ≠ []) (hqnd : q.dropLast.Nodup)
    (hnm : q.getD (q.length - 1) 0 ∉ q.dropLast) : q.Nodup := by
  rw [← dropLast_concat_getD q hne]
  exact nodup_concat_of _ _ hqnd hnm

/-- Appending one destination to a coherent list (whose last entry is rank
`i`, the sender, holding exactly this list as its path) stays coherent. -/
theorem coh_append_of (stf : ℕ → NodeState) (q : List ℤ) (x : ℤ) (i : ℕ)
    (hq : Coh stf q) (hqne : q ≠ [])
    (hlast : q.getD (q.length - 1) 0 = (i : ℤ))
    (hpath : (stf i).graph_path = q) :
    Coh stf (q ++ [x]) := by
  intro k hk
  have hlen : 0 < q.length := List.length_pos.mpr hqne
  simp only [List.length_append, List.length_singleton] at hk
  have hk' : k < q.length := by omega
  rw [List.getD_append _ _ _ _ hk', List.take_append_of_le_length (by omega)]
  by_cases hkk : k + 1 < q.length
  · exact hq k hkk
  · have hke : k = q.length - 1 := by omega
    subst hke
    rw [hlast, Int.toNat_natCast, hpath,
      show q.length - 1 + 1 = q.length by omega, List.take_length,
      path_order_self]
    norm_num

/-- Invariant transfer to a configuration whose states keep mounted, parent
and graph_path, whose children sets only shrink, whose channels hold no new
DISCOVER message, and whose self-channels are empty. -/
theorem inv_shrink (N : ℕ) (c c' : Config) (hinv : Inv N c)
    (hmp : ∀ x : ℕ, (c'.state x).mounted = (c.state x).mounted ∧
      (c'.state x).parent = (c.state x).parent ∧
      (c'.state x).graph_path = (c.state x).graph_path)
    (hch : ∀ x : ℕ, (c'.state x).children ⊆ (c.state x).children)
    (hcd : ∀ a b : ℕ, ∀ q, Msg.discover q ∈ c'.chan a b →
      Msg.discover q ∈ c.chan a b)
    (hself : ∀ a, c'.chan a a = []) : Inv N c' := by
  constructor
  · intro i hi x hx
    exact hinv.children_ok i hi x (hch i hx)
  · intro i hi hm
    rw [(hmp i).1] at hm
    obtain ⟨h1, h2, h3, h4, h5, h6⟩ := hinv.path_ok i hi hm
    rw [(hmp i).2.2]
    refine ⟨h1, h2, h3, h4, ?_, ?_⟩
    · intro x hx
      rw [mountedAt, (hmp _).1]
      exact h5 x hx
    · exact coh_of_eq_paths c.state c'.state _ (fun x => (hmp x).2.2) h6
  · intro i hi hine hm
    rw [(hmp i).1] at hm
    obtain ⟨h1, h2, h3, h4, h5⟩ := hinv.parent_ok i hi hine hm
    rw [(hmp i).2.1, (hmp i).2.2]
    exact ⟨h1, h2, h3, h4, h5⟩
  · obtain ⟨h1, h2, h3⟩ := hinv.root_ok
    rw [(hmp 0).1, (hmp 0).2.1, (hmp 0).2.2]
    exact ⟨h1, h2, h3⟩
  · intro j i hj hi q hq
    obtain ⟨h1, h2, h3, h4, h5, h6, h7⟩ := hinv.msg_ok j i hj hi q (hcd j i q hq)
    refine ⟨h1, h2, h3, h4, h5, ?_, ?_⟩
    · intro x hx
      rw [mountedAt, (hmp _).1]
      exact h6 x hx
    · exact coh_of_eq_paths c.state c'.state _ (fun x => (hmp x).2.2) h7
  · exact hself

theorem chanAfter_discover_mem (c : Config) (j i : ℕ) (m : Msg)
    (rest : List Msg) (hch : c.chan j i = m :: rest) (a b : ℕ) (m' : Msg)
    (hq' : m' ∈ chanAfter c j i rest a b) : m' ∈ c.chan a b := by
  unfold chanAfter at hq'
  by_cases hab : a = j ∧ b = i
  · rw [if_pos hab] at hq'
    rw [hab.1, hab.2, hch]
    exact List.mem_cons_of_mem _ hq'
  · rwa [if_neg hab] at hq'

theorem chanAfter_self (c : Config) (j i : ℕ) (rest : List Msg)
    (hself : ∀ a, c.chan a a = []) (hji : j ≠ i) (a : ℕ) :
    chanAfter c j i rest a a = [] := by
  unfold chanAfter
  have hno : ¬ (a = j ∧ a = i) := by
    rintro ⟨h1, h2⟩
    subst h1
    exact hji h2
  rw [if_neg hno]
  exact hself a

theorem deliver_self_ne (c : Config) (hself : ∀ a, c.chan a a = []) (j i : ℕ)
    (m : Msg) (rest : List Msg) (hch : c.chan j i = m :: rest) : j ≠ i := by
  intro he
  subst he
  rw [hself j] at hch
  exact List.noConfusion hch

theorem mem_of_mem_dropLast (q : List ℤ) (x : ℤ) (h : x ∈ q.dropLast) :
    x ∈ q := by
  have hne : q ≠ [] := by
    intro he
    rw [he] at h
    simp at h
  rw [← dropLast_concat_getD q hne]
  exact List.mem_append_left _ h

/-- Generic preservation for the three adopting branches of the DISCOVER
handler (first mount, better path from the current parent, better path from
a non-parent): the delivered payload `q` becomes the new path, the sender
`j` is the (kept or newly set) parent, and every emitted message carries `q`
extended by its destination. -/
theorem inv_adopt_generic (N : ℕ) (c : Config) (hinv : Inv N c) (j i : ℕ)
    (hj : j < N) (hi : i < N) (hine : i ≠ 0)
    (q : List ℤ) (rest : List Msg)
    (hch : c.chan j i = Msg.discover q :: rest)
    (ST : NodeState) (SENDS : List (ℤ × Msg))
    (hr : handleMessage (j : ℤ) (Msg.discover q) (c.state i) = (ST, SENDS))
    (hSTm : ST.mounted = true)
    (hSTp : ST.parent = (j : ℤ))
    (hSTg : ST.graph_path = q)
    (hSTch : ∀ x ∈ ST.children, 0 ≤ x ∧ x < N ∧ x ≠ (i : ℤ))
    (hnotmem : (i : ℤ) ∉ q.dropLast)
    (hcoh_tr : ∀ r : List ℤ,
      (∀ k, k + 1 < r.length → mountedAt c.state (r.getD k 0)) →
      Coh c.state r → Coh (Function.update c.state i ST) r)
    (hsends : ∀ p ∈ SENDS, 0 ≤ p.1 ∧ p.1 < N ∧ p.1 ≠ (i : ℤ) ∧
      p.2 = Msg.discover (q ++ [p.1])) :
    Inv N (applyDeliver c j i (Msg.discover q) rest) := by
  have hji : j ≠ i := deliver_self_ne c hinv.self_empty j i _ rest hch
  have hmem : Msg.discover q ∈ c.chan j i := by
    rw [hch]; exact List.mem_cons_self _ _
  obtain ⟨hq2, hqlast, hq2nd, hqval, hqnd, hqmnt, hqcoh⟩ :=
    hinv.msg_ok j i hj hi q hmem
  have hqne : q ≠ [] := by intro h; rw [h] at hq2; simp at hq2
  have hqnodup : q.Nodup :=
    nodup_of_dropLast q hqne hqnd (by rw [hqlast]; exact hnotmem)
  have hsx : ∀ x : ℕ, x ≠ i → Function.update c.state i ST x = c.state x :=
    fun x hx => Function.update_noteq hx _ _
  have hsi : Function.update c.state i ST i = ST := Function.update_same _ _ _
  have hmono : ∀ x : ℤ, mountedAt c.state x →
      mountedAt (Function.update c.state i ST) x :=
    mountedAt_mono c.state _ i hsx (fun _ => by rw [hsi]; exact hSTm)
  have hmnt_i : mountedAt (Function.update c.state i ST) (i : ℤ) := by
    rw [mountedAt, Int.toNat_natCast, hsi]; exact hSTm
  have hqmnt' : ∀ x ∈ q, mountedAt (Function.update c.state i ST) x := by
    intro x hx
    rcases mem_dropLast_or_getLast q hqne x hx with h | h
    · exact hmono x (hqmnt x h)
    · rw [h, hqlast]; exact hmnt_i
  have hqcoh' : Coh (Function.update c.state i ST) q :=
    hcoh_tr q (fun k hk => hqmnt _ (getD_mem_dropLast q k hk)) hqcoh
  show Inv N
    { state := Function.update c.state i
        (handleMessage (j : ℤ) (Msg.discover q) (c.state i)).1,
      chan := pushSends i
        (handleMessage (j : ℤ) (Msg.discover q) (c.state i)).2
        (chanAfter c j i rest) }
  rw [hr]
  dsimp only
  constructor
  · -- children_ok
    intro x hx y hy
    dsimp only at hy
    by_cases hxi : x = i
    · subst hxi
      rw [hsi] at hy
      exact hSTch y hy
    · rw [hsx x hxi] at hy
      exact hinv.children_ok x hx y hy
  · -- path_ok
    intro x hx hm'
    dsimp only at hm' ⊢
    by_cases hxi : x = i
    · subst hxi
      rw [hsi, hSTg]
      exact ⟨hqne, hqlast, hqval, hqnodup, hqmnt', hqcoh'⟩
    · rw [hsx x hxi] at hm' ⊢
      obtain ⟨h1, h2, h3, h4, h5, h6⟩ := hinv.path_ok x hx hm'
      refine ⟨h1, h2, h3, h4, ?_, ?_⟩
      · intro y hy
        exact hmono y (h5 y hy)
      · exact hcoh_tr _ (fun k hk => h5 _ (getD_mem _ k (by omega))) h6
  · -- parent_ok
    intro x hx hxne hm'
    dsimp only at hm' ⊢
    by_cases hxi : x = i
    · subst hxi
      rw [hsi, hSTp, hSTg]
      exact ⟨Int.natCast_nonneg j, by exact_mod_cast hj, by exact_mod_cast hji,
        hq2, hq2nd⟩
    · rw [hsx x hxi] at hm' ⊢
      exact hinv.parent_ok x hx hxne hm'
  · -- root_ok
    dsimp only
    rw [hsx 0 (Ne.symm hine)]
    exact hinv.root_ok
  · -- msg_ok
    intro a b ha hb q' hq'
    dsimp only at hq' ⊢
    rcases mem_pushSends i SENDS (chanAfter c j i rest) a b _ hq' with
      hold | ⟨hai, p, hp, hpb, hpm⟩
    · have hq'' := chanAfter_discover_mem c j i _ rest hch a b _ hold
      obtain ⟨g1, g2, g3, g4, g5, g6, g7⟩ := hinv.msg_ok a b ha hb q' hq''
      refine ⟨g1, g2, g3, g4, g5, ?_, ?_⟩
      · intro y hy
        exact hmono y (g6 y hy)
      · exact hcoh_tr _ (fun k hk => g6 _ (getD_mem_dropLast _ k hk)) g7
    · obtain ⟨hp0, hpN, hpi, hpd⟩ := hsends p hp
      rw [hpd] at hpm
      have hq'eq : q' = q ++ [p.1] := by
        injection hpm with h
        exact h.symm
      subst hq'eq
      have hbp : (b : ℤ) = p.1 := by
        rw [← hpb, Int.toNat_of_nonneg hp0]
      have hlen : (q ++ [p.1]).length = q.length + 1 := by simp
      refine ⟨?_, ?_, ?_, ?_, ?_, ?_, ?_⟩
      · rw [hlen]; omega
      · rw [hlen, Nat.add_sub_cancel, getD_concat_self]
        exact hbp.symm
      · rw [hlen, show q.length + 1 - 2 = q.length - 1 by omega,
          List.getD_append _ _ _ _ (by omega), hai]
        exact hqlast
      · intro y hy
        rcases List.mem_append.mp hy with h | h
        · exact hqval y h
        · simp only [List.mem_singleton] at h
          subst h
          exact ⟨hp0, hpN⟩
      · rw [List.dropLast_concat]
        exact hqnodup
      · rw [List.dropLast_concat]
        intro y hy
        exact hqmnt' y hy
      · exact coh_append_of (Function.update c.state i ST) q p.1 i hqcoh' hqne
          hqlast (by rw [hsi, hSTg])
  · -- self_empty
    intro a
    apply pushSends_empty_of
    · exact chanAfter_self c j i rest hinv.self_empty hji a
    · intro p hp hcon
      obtain ⟨ha, hpb⟩ := hcon
      obtain ⟨hp0, hpN, hpi, _⟩ := hsends p hp
      subst ha
      apply hpi
      rw [← Int.toNat_of_nonneg hp0, hpb]

/-- Preservation, case A: DISCOVER delivered to an unmounted process
(lines 256-268). -/
theorem inv_mount (N : ℕ) (c : Config) (hinv : Inv N c) (j i : ℕ)
    (hj : j < N) (hi : i < N) (q : List ℤ) (rest : List Msg)
    (hch : c.chan j i = Msg.discover q :: rest)
    (hmount : (c.state i).mounted = false) :
    Inv N (applyDeliver c j i (Msg.discover q) rest) := by
  have hmem : Msg.discover q ∈ c.chan j i := by
    rw [hch]; exact List.mem_cons_self _ _
  obtain ⟨hq2, hqlast, hq2nd, hqval, hqnd, hqmnt, hqcoh⟩ :=
    hinv.msg_ok j i hj hi q hmem
  have hine : i ≠ 0 := by
    intro h0
    subst h0
    rw [hinv.root_ok.1] at hmount
    exact Bool.noConfusion hmount
  have hnotmem : (i : ℤ) ∉ q.dropLast := by
    intro hm'
    have hx := hqmnt _ hm'
    rw [mountedAt, Int.toNat_natCast, hmount] at hx
    exact Bool.noConfusion hx
  refine inv_adopt_generic N c hinv j i hj hi hine q rest hch _ _
    (step_discover_unmounted (c.state i) (j : ℤ) q hmount) rfl rfl rfl
    ?_ hnotmem ?_ ?_
  · intro x hx
    exact hinv.children_ok i hi x (Finset.mem_of_mem_erase hx)
  · intro r hrm hrc
    exact coh_of_unmounted c.state _ i r
      (fun x hx => Function.update_noteq hx _ _) hmount hrm hrc
  · intro p hp
    obtain ⟨hpd, hpm⟩ := mem_discoverAll _ _ p hp
    obtain ⟨h0, hN', hii⟩ :=
      hinv.children_ok i hi p.1 (Finset.mem_of_mem_erase hpd)
    exact ⟨h0, hN', hii, hpm⟩

/-- Preservation, case B with adoption: a strictly better DISCOVER from the
current parent (lines 269-279). -/
theorem inv_adoptB (N : ℕ) (c : Config) (hinv : Inv N c) (j i : ℕ)
    (hj : j < N) (hi : i < N) (q : List ℤ) (rest : List Msg)
    (hch : c.chan j i = Msg.discover q :: rest)
    (hm : (c.state i).mounted = true)
    (hsp : (j : ℤ) = (c.state i).parent)
    (ho : path_order (c.state i).graph_path q = 1) :
    Inv N (applyDeliver c j i (Msg.discover q) rest) := by
  have hmem : Msg.discover q ∈ c.chan j i := by
    rw [hch]; exact List.mem_cons_self _ _
  obtain ⟨hq2, hqlast, hq2nd, hqval, hqnd, hqmnt, hqcoh⟩ :=
    hinv.msg_ok j i hj hi q hmem
  obtain ⟨hpne, hplast, hpval, hpnd, hpmnt, hpcoh⟩ := hinv.path_ok i hi hm
  have hine : i ≠ 0 := by
    intro h0
    subst h0
    rw [hinv.root_ok.2.2] at hsp
    omega
  have hnotmem : (i : ℤ) ∉ q.dropLast :=
    adopt_not_mem_dropLast c.state i q hpne hplast hpnd hqcoh ho
  refine inv_adopt_generic N c hinv j i hj hi hine q rest hch _ _
    (step_discover_parent_adopt (c.state i) (j : ℤ) q hm hsp ho) hm hsp.symm rfl
    ?_ hnotmem ?_ ?_
  · intro x hx
    exact hinv.children_ok i hi x hx
  · intro r _ hrc
    refine coh_of_improve c.state _ i r
      (fun x hx => Function.update_noteq hx _ _) ?_ hrc
    rw [Function.update_same]
    exact ho
  · intro p hp
    exact absurd hp (List.not_mem_nil p)

/-- Preservation, case C: a strictly better DISCOVER from a non-parent
(lines 287-300), in both is_parent_rejected variants. -/
theorem inv_adoptC (N : ℕ) (c : Config) (hinv : Inv N c) (j i : ℕ)
    (hj : j < N) (hi : i < N) (q : List ℤ) (rest : List Msg)
    (hch : c.chan j i = Msg.discover q :: rest)
    (hm : (c.state i).mounted = true)
    (hsp : (j : ℤ) ≠ (c.state i).parent)
    (ho : path_order (c.state i).graph_path q = 1) :
    Inv N (applyDeliver c j i (Msg.discover q) rest) := by
  have hmem : Msg.discover q ∈ c.chan j i := by
    rw [hch]; exact List.mem_cons_self _ _
  obtain ⟨hq2, hqlast, hq2nd, hqval, hqnd, hqmnt, hqcoh⟩ :=
    hinv.msg_ok j i hj hi q hmem
  obtain ⟨hpne, hplast, hpval, hpnd, hpmnt, hpcoh⟩ := hinv.path_ok i hi hm
  have hine : i ≠ 0 := by
    intro h0
    subst h0
    rw [hinv.root_ok.2.1] at ho
    exact path_order_root_ne_one q (fun x hx => (hqval x hx).1) ho
  obtain ⟨hpar0, hparN, hpari, _, _⟩ := hinv.parent_ok i hi hine hm
  have hnotmem : (i : ℤ) ∉ q.dropLast :=
    adopt_not_mem_dropLast c.state i q hpne hplast hpnd hqcoh ho
  by_cases hrej : (c.state i).is_parent_rejected = true
  · refine inv_adopt_generic N c hinv j i hj hi hine q rest hch _ _
      (step_discover_adopt_rej (c.state i) (j : ℤ) q hm hsp ho hrej) hm rfl rfl
      ?_ hnotmem ?_ ?_
    · intro x hx
      exact hinv.children_ok i hi x (Finset.mem_of_mem_erase hx)
    · intro r _ hrc
      refine coh_of_improve c.state _ i r
        (fun x hx => Function.update_noteq hx _ _) ?_ hrc
      rw [Function.update_same]
      exact ho
    · intro p hp
      exact absurd hp (List.not_mem_nil p)
  · have hrf : (c.state i).is_parent_rejected = false := by
      cases hh : (c.state i).is_parent_rejected
      · rfl
      · exact absurd hh hrej
    refine inv_adopt_generic N c hinv j i hj hi hine q rest hch _ _
      (step_discover_adopt (c.state i) (j : ℤ) q hm hsp ho hrf) hm rfl rfl
      ?_ hnotmem ?_ ?_
    · intro x hx
      rcases Finset.mem_insert.mp (Finset.mem_of_mem_erase hx) with h | h
      · subst h
        exact ⟨hpar0, hparN, hpari⟩
      · exact hinv.children_ok i hi x h
    · intro r _ hrc
      refine coh_of_improve c.state _ i r
        (fun x hx => Function.update_noteq hx _ _) ?_ hrc
      rw [Function.update_same]
      exact ho
    · intro p hp
      simp only [List.mem_singleton] at hp
      subst hp
      exact ⟨hpar0, hparN, hpari, rfl⟩

/-- Preservation, case E: the current path strictly dominates, echo it back
to the sender (lines 315-318). -/
theorem inv_echo (N : ℕ) (c : Config) (hinv : Inv N c) (j i : ℕ)
    (hj : j < N) (hi : i < N) (q : List ℤ) (rest : List Msg)
    (hch : c.chan j i = Msg.discover q :: rest)
    (hm : (c.state i).mounted = true)
    (hsp : (j : ℤ) ≠ (c.state i).parent)
    (ho : path_order (c.state i).graph_path q = -1) :
    Inv N (applyDeliver c j i (Msg.discover q) rest) := by
  have hji : j ≠ i := deliver_self_ne c hinv.self_empty j i _ rest hch
  obtain ⟨hpne, hplast, hpval, hpnd, hpmnt, hpcoh⟩ := hinv.path_ok i hi hm
  have hplen : 0 < (c.state i).graph_path.length := List.length_pos.mpr hpne
  show Inv N
    { state := Function.update c.state i
        (handleMessage (j : ℤ) (Msg.discover q) (c.state i)).1,
      chan := pushSends i
        (handleMessage (j : ℤ) (Msg.discover q) (c.state i)).2
        (chanAfter c j i rest) }
  rw [step_discover_echo (c.state i) (j : ℤ) q hm hsp ho]
  dsimp only
  rw [Function.update_eq_self]
  constructor
  · intro x hx y hy
    exact hinv.children_ok x hx y hy
  · intro x hx hm'
    exact hinv.path_ok x hx hm'
  · intro x hx hxne hm'
    exact hinv.parent_ok x hx hxne hm'
  · exact hinv.root_ok
  · intro a b ha hb q' hq'
    dsimp only at hq'
    rcases mem_pushSends i _ (chanAfter c j i rest) a b _ hq' with
      hold | ⟨hai, p, hp, hpb, hpm⟩
    · exact hinv.msg_ok a b ha hb q'
        (chanAfter_discover_mem c j i _ rest hch a b _ hold)
    · simp only [List.mem_singleton] at hp
      subst hp
      dsimp only at hpb hpm
      have hq'eq : q' = (c.state i).graph_path ++ [(j : ℤ)] := by
        injection hpm with h
        exact h.symm
      subst hq'eq
      have hbj : b = j := by rw [← hpb, Int.toNat_natCast]
      have hlen : ((c.state i).graph_path ++ [(j : ℤ)]).length
          = (c.state i).graph_path.length + 1 := by simp
      refine ⟨by rw [hlen]; omega, ?_, ?_, ?_, ?_, ?_, ?_⟩
      · rw [hlen, Nat.add_sub_cancel, getD_concat_self, hbj]
      · rw [hlen, show (c.state i).graph_path.length + 1 - 2
            = (c.state i).graph_path.length - 1 by omega,
          List.getD_append _ _ _ _ (by omega), hai]
        exact hplast
      · intro y hy
        rcases List.mem_append.mp hy with h | h
        · exact hpval y h
        · simp only [List.mem_singleton] at h
          subst h
          exact ⟨Int.natCast_nonneg j, by exact_mod_cast hj⟩
      · rw [List.dropLast_concat]
        exact hpnd
      · rw [List.dropLast_concat]
        exact hpmnt
      · exact coh_append_of c.state _ (j : ℤ) i hpcoh hpne hplast rfl
  · intro a
    apply pushSends_empty_of
    · exact chanAfter_self c j i rest hinv.self_empty hji a
    · intro p hp hcon
      obtain ⟨ha, hpb⟩ := hcon
      simp only [List.mem_singleton] at hp
      subst hp
      dsimp only at hpb
      rw [Int.toNat_natCast] at hpb
      exact hji (hpb.trans ha)

/-- Preservation, case D: cycle detected (lines 301-314); one endpoint of
the loop-closing edge is removed from children and sent a REJECT. -/
theorem inv_cycle (N : ℕ) (c : Config) (hinv : Inv N c) (j i : ℕ)
    (hj : j < N) (hi : i < N) (q : List ℤ) (rest : List Msg)
    (hch : c.chan j i = Msg.discover q :: rest)
    (hm : (c.state i).mounted = true)
    (hsp : (j : ℤ) ≠ (c.state i).parent)
    (ho : path_order (c.state i).graph_path q = 0) :
    Inv N (applyDeliver c j i (Msg.discover q) rest) := by
  have hji : j ≠ i := deliver_self_ne c hinv.self_empty j i _ rest hch
  have hmem : Msg.discover q ∈ c.chan j i := by
    rw [hch]; exact List.mem_cons_self _ _
  obtain ⟨hq2, hqlast, hq2nd, hqval, hqnd, hqmnt, hqcoh⟩ :=
    hinv.msg_ok j i hj hi q hmem
  obtain ⟨hpne, hplast, hpval, hpnd, hpmnt, hpcoh⟩ := hinv.path_ok i hi hm
  have hplen : 0 < (c.state i).graph_path.length := List.length_pos.mpr hpne
  have hbound := case_d_bound N c hinv j i hj hi hji q hmem hm hsp ho
  have hLq : (c.state i).graph_path.length + 1 < q.length := by omega
  have htmem : q.getD (c.state i).graph_path.length 0 ∈ q.dropLast :=
    getD_mem_dropLast q _ hLq
  obtain ⟨ht0, htN⟩ := hqval _ (mem_of_mem_dropLast q _ htmem)
  have hagree := (path_order_eq_zero_iff (c.state i).graph_path q).mp ho
  have hqL1 : q.getD ((c.state i).graph_path.length - 1) 0 = (i : ℤ) := by
    rw [← hagree ((c.state i).graph_path.length - 1) (by rw [Nat.lt_min]; omega)]
    exact hplast
  have hdl : q.dropLast.length = q.length - 1 := List.length_dropLast q
  have htne : q.getD (c.state i).graph_path.length 0 ≠ (i : ℤ) := by
    intro he
    have heq := nodup_getD_inj q.dropLast hqnd
      ((c.state i).graph_path.length - 1) ((c.state i).graph_path.length)
      (by omega) (by omega)
      (by rw [getD_dropLast q _ (by omega), getD_dropLast q _ (by omega),
        hqL1, he])
    omega
  by_cases ht : q.getD (c.state i).graph_path.length 0 < (j : ℤ)
  · show Inv N
      { state := Function.update c.state i
          (handleMessage (j : ℤ) (Msg.discover q) (c.state i)).1,
        chan := pushSends i
          (handleMessage (j : ℤ) (Msg.discover q) (c.state i)).2
          (chanAfter c j i rest) }
    rw [step_discover_cycle_s (c.state i) (j : ℤ) q hm hsp ho ht]
    dsimp only
    apply inv_shrink N c _ hinv
    · intro x
      dsimp only
      by_cases hx : x = i
      · subst hx
        rw [Function.update_same]
        exact ⟨rfl, rfl, rfl⟩
      · rw [Function.update_noteq hx]
        exact ⟨rfl, rfl, rfl⟩
    · intro x
      dsimp only
      by_cases hx : x = i
      · subst hx
        rw [Function.update_same]
        exact Finset.erase_subset _ _
      · rw [Function.update_noteq hx]
    · intro a b q'' hq''
      rcases mem_pushSends i _ (chanAfter c j i rest) a b _ hq'' with
        hold | ⟨_, p, hp, _, hpm⟩
      · exact chanAfter_discover_mem c j i _ rest hch a b _ hold
      · simp only [List.mem_singleton] at hp
        subst hp
        exact Msg.noConfusion hpm
    · intro a
      apply pushSends_empty_of
      · exact chanAfter_self c j i rest hinv.self_empty hji a
      · intro p hp hcon
        obtain ⟨ha, hpb⟩ := hcon
        simp only [List.mem_singleton] at hp
        subst hp
        dsimp only at hpb
        rw [Int.toNat_natCast] at hpb
        exact hji (hpb.trans ha)
  · show Inv N
      { state := Function.update c.state i
          (handleMessage (j : ℤ) (Msg.discover q) (c.state i)).1,
        chan := pushSends i
          (handleMessage (j : ℤ) (Msg.discover q) (c.state i)).2
          (chanAfter c j i rest) }
    rw [step_discover_cycle_t (c.state i) (j : ℤ) q hm hsp ho ht]
    dsimp only
    apply inv_shrink N c _ hinv
    · intro x
      dsimp only
      by_cases hx : x = i
      · subst hx
        rw [Function.update_same]
        exact ⟨rfl, rfl, rfl⟩
      · rw [Function.update_noteq hx]
        exact ⟨rfl, rfl, rfl⟩
    · intro x
      dsimp only
      by_cases hx : x = i
      · subst hx
        rw [Function.update_same]
        exact Finset.erase_subset _ _
      · rw [Function.update_noteq hx]
    · intro a b q'' hq''
      rcases mem_pushSends i _ (chanAfter c j i rest) a b _ hq'' with
        hold | ⟨_, p, hp, _, hpm⟩
      · exact chanAfter_discover_mem c j i _ rest hch a b _ hold
      · simp only [List.mem_singleton] at hp
        subst hp
        exact Msg.noConfusion hpm
    · intro a
      apply pushSends_empty_of
      · exact chanAfter_self c j i rest hinv.self_empty hji a
      · intro p hp hcon
        obtain ⟨ha, hpb⟩ := hcon
        simp only [List.mem_singleton] at hp
        subst hp
        dsimp only at hpb
        apply htne
        rw [← Int.toNat_of_nonneg ht0, hpb, ha]

/-- Preservation for the spontaneous TERMINATE rule. -/
theorem inv_spont (N : ℕ) (c : Config) (hinv : Inv N c) (j i : ℕ)
    (hne : j ≠ i) :
    Inv N { c with chan := fun a b =>
      if a = j ∧ b = i then c.chan a b ++ [Msg.terminate] else c.chan a b } := by
  apply inv_shrink N c _ hinv
  · intro x
    exact ⟨rfl, rfl, rfl⟩
  · intro x
    exact Finset.Subset.refl _
  · intro a b q' hq'
    dsimp only at hq'
    by_cases hab : a = j ∧ b = i
    · rw [if_pos hab] at hq'
      rcases List.mem_append.mp hq' with h | h
      · exact h
      · simp only [List.mem_singleton] at h
        exact Msg.noConfusion h
    · rwa [if_neg hab] at hq'
  · intro a
    dsimp only
    have hno : ¬ (a = j ∧ a = i) := by
      rintro ⟨h1, h2⟩
      subst h1
      exact hne h2
    rw [if_neg hno]
    exact hinv.self_empty a

/-- The invariant is preserved by every scheduler step. -/
theorem inv_preserved (N : ℕ) (c c' : Config) (hinv : Inv N c)
    (hstep : Step N c c') : Inv N c' := by
  cases hstep with
  | spontTerminate j i hj hi hne => exact inv_spont N c hinv j i hne
  | deliver j i hj hi m rest hch =>
    have hji : j ≠ i := deliver_self_ne c hinv.self_empty j i _ rest hch
    cases m with
    | terminate =>
      show Inv N
        { state := Function.update c.state i
            (handleMessage (j : ℤ) Msg.terminate (c.state i)).1,
          chan := pushSends i
            (handleMessage (j : ℤ) Msg.terminate (c.state i)).2
            (chanAfter c j i rest) }
      rw [step_terminate]
      dsimp only
      rw [pushSends_nil]
      apply inv_shrink N c _ hinv
      · intro x
        dsimp only
        by_cases hx : x = i
        · subst hx
          rw [Function.update_same]
          exact ⟨rfl, rfl, rfl⟩
        · rw [Function.update_noteq hx]
          exact ⟨rfl, rfl, rfl⟩
      · intro x
        dsimp only
        by_cases hx : x = i
        · subst hx
          rw [Function.update_same]
        · rw [Function.update_noteq hx]
      · intro a b q' hq'
        exact chanAfter_discover_mem c j i _ rest hch a b _ hq'
      · exact chanAfter_self c j i rest hinv.self_empty hji
    | reject =>
      by_cases hsp : (j : ℤ) = (c.state i).parent
      · show Inv N
          { state := Function.update c.state i
              (handleMessage (j : ℤ) Msg.reject (c.state i)).1,
            chan := pushSends i
              (handleMessage (j : ℤ) Msg.reject (c.state i)).2
              (chanAfter c j i rest) }
        rw [step_reject_parent (c.state i) (j : ℤ) hsp]
        dsimp only
        rw [pushSends_nil]
        apply inv_shrink N c _ hinv
        · intro x
          dsimp only
          by_cases hx : x = i
          · subst hx
            rw [Function.update_same]
            exact ⟨rfl, rfl, rfl⟩
          · rw [Function.update_noteq hx]
            exact ⟨rfl, rfl, rfl⟩
        · intro x
          dsimp only
          by_cases hx : x = i
          · subst hx
            rw [Function.update_same]
          · rw [Function.update_noteq hx]
        · intro a b q' hq'
          exact chanAfter_discover_mem c j i _ rest hch a b _ hq'
        · exact chanAfter_self c j i rest hinv.self_empty hji
      · show Inv N
          { state := Function.update c.state i
              (handleMessage (j : ℤ) Msg.reject (c.state i)).1,
            chan := pushSends i
              (handleMessage (j : ℤ) Msg.reject (c.state i)).2
              (chanAfter c j i rest) }
        rw [step_reject_other (c.state i) (j : ℤ) hsp]
        dsimp only
        rw [pushSends_nil]
        apply inv_shrink N c _ hinv
        · intro x
          dsimp only
          by_cases hx : x = i
          · subst hx
            rw [Function.update_same]
            exact ⟨rfl, rfl, rfl⟩
          · rw [Function.update_noteq hx]
            exact ⟨rfl, rfl, rfl⟩
        · intro x
          dsimp only
          by_cases hx : x = i
          · subst hx
            rw [Function.update_same]
            exact Finset.erase_subset _ _
          · rw [Function.update_noteq hx]
        · intro a b q' hq'
          exact chanAfter_discover_mem c j i _ rest hch a b _ hq'
        · exact chanAfter_self c j i rest hinv.self_empty hji
    | discover q =>
      by_cases hmount : (c.state i).mounted = false
      · exact inv_mount N c hinv j i hj hi q rest hch hmount
      · have hm : (c.state i).mounted = true := by
          cases hh : (c.state i).mounted
          · exact absurd hh hmount
          · rfl
        by_cases hsp : (j : ℤ) = (c.state i).parent
        · by_cases ho : path_order (c.state i).graph_path q = 1
          · exact inv_adoptB N c hinv j i hj hi q rest hch hm hsp ho
          · show Inv N
              { state := Function.update c.state i
                  (handleMessage (j : ℤ) (Msg.discover q) (c.state i)).1,
                chan := pushSends i
                  (handleMessage (j : ℤ) (Msg.discover q) (c.state i)).2
                  (chanAfter c j i rest) }
            rw [step_discover_parent_skip (c.state i) (j : ℤ) q hm hsp ho]
            dsimp only
            rw [pushSends_nil, Function.update_eq_self]
            apply inv_shrink N c _ hinv
            · intro x
              exact ⟨rfl, rfl, rfl⟩
            · intro x
              exact Finset.Subset.refl _
            · intro a b q' hq'
              exact chanAfter_discover_mem c j i _ rest hch a b _ hq'
            · exact chanAfter_self c j i rest hinv.self_empty hji
        · rcases path_order_cases (c.state i).graph_path q with ho | ho | ho
          · exact inv_echo N c hinv j i hj hi q rest hch hm hsp ho
          · exact inv_cycle N c hinv j i hj hi q rest hch hm hsp ho
          · exact inv_adoptC N c hinv j i hj hi q rest hch hm hsp ho

/-- Every reachable configuration satisfies the invariant. -/
theorem inv_reachable (N : ℕ) (nbr : ℕ → Finset ℤ) (hN : 0 < N)
    (hnbr : ValidNbr N nbr) (c : Config) (hc : Reachable N nbr c) :
    Inv N c := by
  induction hc with
  | refl => exact inv_init N nbr hN hnbr
  | tail _ hstep ih => exact inv_preserved N _ _ ih hstep

/-- C5: in every reachable configuration of the system on a well-formed
graph, a pending DISCOVER that its mounted receiver would process in case D
(from a non-parent, comparator 0) has a payload strictly longer than the
receiver's current path, so the read of `t = q[path_length]` at line 303
stays within the payload. -/
theorem case_d_payload_longer (N : ℕ) (nbr : ℕ → Finset ℤ) (hN : 0 < N)
    (hnbr : ValidNbr N nbr) (c : Config) (hc : Reachable N nbr c)
    (j i : ℕ) (hj : j < N) (hi : i < N) (q : List ℤ) (rest : List Msg)
    (hch : c.chan j i = Msg.discover q :: rest)
    (hm : (c.state i).mounted = true)
    (hsp : (j : ℤ) ≠ (c.state i).parent)
    (ho : path_order (c.state i).graph_path q = 0) :
    (c.state i).graph_path.length < q.length := by
  have hinv := inv_reachable N nbr hN hnbr c hc
  have hji : j ≠ i := deliver_self_ne c hinv.self_empty j i _ rest hch
  have hb := case_d_bound N c hinv j i hj hi hji q
    (by rw [hch]; exact List.mem_cons_self _ _) hm hsp ho
  omega

theorem pushSends_ne (i : ℕ) (sends : List (ℤ × Msg)) (ch : ℕ → ℕ → List Msg)
    (a b : ℕ) (ha : a ≠ i) : pushSends i sends ch a b = ch a b := by
  induction sends generalizing ch with
  | nil => rfl
  | cons p ps ih =>
    rw [pushSends_cons, ih]
    rw [if_neg (by rintro ⟨h1, _⟩; exact ha h1)]

theorem discoverAll_singleton (d : ℤ) (path : List ℤ) :
    discoverAll {d} path = [(d, Msg.discover (path ++ [d]))] := by
  unfold discoverAll
  rw [Finset.sort_singleton]
  rfl

theorem case_d_payload_longer_witness :
    (wc3.state 0).graph_path.length < ([0, 1, 2, 0] : List ℤ).length := by
  have hs01 : wc0.state 1 = initState 1 {0, 2} := rfl
  have hs02 : wc0.state 2 = initState 2 {0, 1} := rfl
  -- process 0's state is never updated along this schedule
  have hw1s0 : wc1.state 0 = wc0.state 0 := by
    show (applyDeliver wc0 0 1 (Msg.discover [0, 1]) []).state 0 = _
    unfold applyDeliver
    dsimp only
    rw [Function.update_noteq (by norm_num)]
  have hw2s0 : wc2.state 0 = wc0.state 0 := by
    show (applyDeliver wc1 0 2 (Msg.discover [0, 2]) []).state 0 = _
    unfold applyDeliver
    dsimp only
    rw [Function.update_noteq (by norm_num)]
    exact hw1s0
  have hw3s0 : wc3.state 0 = wc0.state 0 := by
    show (applyDeliver wc2 1 2 (Msg.discover [0, 1, 2]) []).state 0 = _
    unfold applyDeliver
    dsimp only
    rw [Function.update_noteq (by norm_num)]
    exact hw2s0
  -- the three handler evaluations along the schedule
  have he1 : ({0, 2} : Finset ℤ).erase 0 = {2} := by decide
  have h1 : handleMessage ((0 : ℕ) : ℤ) (Msg.discover [0, 1]) (wc0.state 1)
      = (⟨1, true, 0, [0, 1], {2}, ∅, false⟩,
         [((2 : ℤ), Msg.discover [0, 1, 2])]) := by
    rw [hs01, step_discover_unmounted _ _ _ rfl,
      show (initState 1 ({0, 2} : Finset ℤ)).children.erase ((0 : ℕ) : ℤ)
        = ({2} : Finset ℤ) from he1, discoverAll_singleton]
    decide
  have hw1s2 : wc1.state 2 = initState 2 {0, 1} := by
    show (applyDeliver wc0 0 1 (Msg.discover [0, 1]) []).state 2 = _
    unfold applyDeliver
    dsimp only
    rw [Function.update_noteq (by norm_num)]
    exact hs02
  have he2 : ({0, 1} : Finset ℤ).erase 0 = {1} := by decide
  have h2 : handleMessage ((0 : ℕ) : ℤ) (Msg.discover [0, 2]) (wc1.state 2)
      = (⟨2, true, 0, [0, 2], {1}, ∅, false⟩,
         [((1 : ℤ), Msg.discover [0, 2, 1])]) := by
    rw [hw1s2, step_discover_unmounted _ _ _ rfl,
      show (initState 2 ({0, 1} : Finset ℤ)).children.erase ((0 : ℕ) : ℤ)
        = ({1} : Finset ℤ) from he2, discoverAll_singleton]
    decide
  have hw2s2 : wc2.state 2 = ⟨2, true, 0, [0, 2], {1}, ∅, false⟩ := by
    show (applyDeliver wc1 0 2 (Msg.discover [0, 2]) []).state 2 = _
    unfold applyDeliver
    dsimp only
    rw [h2]
    dsimp only
    rw [Function.update_same]
  have h3 : handleMessage ((1 : ℕ) : ℤ) (Msg.discover [0, 1, 2]) (wc2.state 2)
      = (⟨2, true, 1, [0, 1, 2], {0}, ∅, false⟩,
         [((0 : ℤ), Msg.discover [0, 1, 2, 0])]) := by
    rw [hw2s2, step_discover_adopt _ _ _ rfl (by decide) (by decide) rfl]
    decide
  -- channel contents along the schedule
  have hc02 : wc1.chan 0 2 = [Msg.discover [0, 2]] := by
    show (applyDeliver wc0 0 1 (Msg.discover [0, 1]) []).chan 0 2 = _
    unfold applyDeliver
    dsimp only
    rw [pushSends_ne _ _ _ _ _ (by norm_num)]
    show chanAfter wc0 0 1 [] 0 2 = _
    unfold chanAfter
    rw [if_neg (by norm_num)]
    decide
  have hc12 : wc2.chan 1 2 = [Msg.discover [0, 1, 2]] := by
    show (applyDeliver wc1 0 2 (Msg.discover [0, 2]) []).chan 1 2 = _
    unfold applyDeliver
    dsimp only
    rw [pushSends_ne _ _ _ _ _ (by norm_num)]
    show chanAfter wc1 0 2 [] 1 2 = _
    unfold chanAfter
    rw [if_neg (by norm_num)]
    show (applyDeliver wc0 0 1 (Msg.discover [0, 1]) []).chan 1 2 = _
    unfold applyDeliver
    dsimp only
    rw [h1]
    dsimp only
    rw [pushSends_cons, pushSends_nil]
    dsimp only
    rw [if_pos ⟨rfl, by decide⟩]
    show chanAfter wc0 0 1 [] 1 2 ++ [Msg.discover [0, 1, 2]] = _
    unfold chanAfter
    rw [if_neg (by norm_num)]
    decide
  have hc20 : wc3.chan 2 0 = [Msg.discover [0, 1, 2, 0]] := by
    show (applyDeliver wc2 1 2 (Msg.discover [0, 1, 2]) []).chan 2 0 = _
    unfold applyDeliver
    dsimp only
    rw [h3]
    dsimp only
    rw [pushSends_cons, pushSends_nil]
    dsimp only
    rw [if_pos ⟨rfl, by decide⟩]
    have hbase : chanAfter wc2 1 2 [] 2 0 = [] := by
      unfold chanAfter
      rw [if_neg (by norm_num)]
      show (applyDeliver wc1 0 2 (Msg.discover [0, 2]) []).chan 2 0 = _
      unfold applyDeliver
      dsimp only
      rw [h2]
      dsimp only
      rw [pushSends_cons, pushSends_nil]
      dsimp only
      rw [if_neg (by decide)]
      show chanAfter wc1 0 2 [] 2 0 = _
      unfold chanAfter
      rw [if_neg (by norm_num)]
      show (applyDeliver wc0 0 1 (Msg.discover [0, 1]) []).chan 2 0 = _
      unfold applyDeliver
      dsimp only
      rw [pushSends_ne _ _ _ _ _ (by norm_num)]
      show chanAfter wc0 0 1 [] 2 0 = _
      unfold chanAfter
      rw [if_neg (by norm_num)]
      decide
    rw [hbase]
    rfl
  -- the schedule is a real run
  have hstep1 : Step 3 wc0 wc1 :=
    Step.deliver wc0 0 1 (by norm_num) (by norm_num)
      (Msg.discover [0, 1]) [] (by decide)
  have hstep2 : Step 3 wc1 wc2 :=
    Step.deliver wc1 0 2 (by norm_num) (by norm_num)
      (Msg.discover [0, 2]) [] hc02
  have hstep3 : Step 3 wc2 wc3 :=
    Step.deliver wc2 1 2 (by norm_num) (by norm_num)
      (Msg.discover [0, 1, 2]) [] hc12
  have hreach : Reachable 3 triNbr wc3 := by
    show Relation.ReflTransGen (Step 3) wc0 wc3
    exact Relation.ReflTransGen.head hstep1
      (Relation.ReflTransGen.head hstep2 (Relation.ReflTransGen.single hstep3))
  have hvn : ValidNbr 3 triNbr := by
    unfold ValidNbr
    decide
  have hmount : (wc3.state 0).mounted = true := by
    rw [hw3s0]
    rfl
  have hparent : ((2 : ℕ) : ℤ) ≠ (wc3.state 0).parent := by
    rw [hw3s0]
    decide
  have horder : path_order (wc3.state 0).graph_path [0, 1, 2, 0] = 0 := by
    rw [hw3s0]
    decide
  exact case_d_payload_longer 3 triNbr (by norm_num) hvn wc3 hreach
    2 0 (by norm_num) (by norm_num) [0, 1, 2, 0] [] hc20 hmount hparent horder

end PDDFS
